import Mathlib

/-!
Cramer's rule solver: shallow embedding and verification.

Embedding of the two Go programs of the repository:

* `Kramer.go` (sequential solver): `isSquareMatrix`, `isAugmentedMatrixForCramer`,
  `minor`, `determinant`, `cramer`  -- namespace `Kramer`;
* `Cramer_multithreading.go` (concurrent solver): `determinant`, `replaceColumn`,
  `cramerParallel` -- namespace `CramerMT`.

Conventions of the embedding.

* A Go `[][]float64` is a `List (List K)`; a `[]float64` is a `List K`.  The entries are
  taken as exact elements of a commutative ring / field `K` (no rounding, no NaN).
* A Go function returning `(v, error)` becomes a function into `Except Fault _`.
  A run-time panic (index out of range, `make` with negative length) is the fault
  `Fault.panic`; the three `errors.New` values of `Kramer.go` are the other faults.
* Slices are mutated in place in the source; here every write returns the new value
  (explicit state passing).  `for i := 0; i < n; i++` is a monadic left fold over
  `List.range n`, so that an early `return ..., err` or a panic aborts the loop.
* Line 194 of `Kramer.go` (`/ Вычисление значения x_i = detAi / detA`) is read as the
  comment it is meant to be.
-/

namespace GoSem

/-- Failure outcomes of the embedded Go code. -/
inductive Fault where
  /-- The error `errors.New("матрица должна быть квадратной для вычисления определителя")` -/
  | notSquare
  /-- The error `errors.New("матрица не соответствует формату для метода Крамера")` -/
  | badFormat
  /-- The error `errors.New("определитель основной матрицы равен 0, ...")` -/
  | zeroDet
  /-- A run-time panic: index out of range, slice bounds out of range, negative `make`. -/
  | panic
  deriving DecidableEq

/-- A Go `[][]float64`: a list of rows. -/
abbrev Mat (K : Type) := List (List K)

/-- The Go expression `s[i]`: panics when `i` is out of range. -/
def index {α : Type} (s : List α) (i : Nat) : Except Fault α :=
  match s[i]? with
  | some a => .ok a
  | none => .error .panic

/-- The Go statement `s[i] = v`: panics when `i` is out of range. -/
def assign {α : Type} (s : List α) (i : Nat) (v : α) : Except Fault (List α) :=
  if i < s.length then .ok (s.set i v) else .error .panic

/-- The Go expression `m[i][j]`. -/
def index2 {K : Type} (m : Mat K) (i j : Nat) : Except Fault K := do
  let r ← index m i
  index r j

/-- The Go statement `m[i][j] = v`. -/
def assign2 {K : Type} (m : Mat K) (i j : Nat) (v : K) : Except Fault (Mat K) := do
  let r ← index m i
  let r' ← assign r j v
  assign m i r'

/-- The Go expression `s[:n]` on a slice whose capacity equals its length
(every slice sliced in the source is a whole row of the input). -/
def sliceTo {α : Type} (s : List α) (n : Nat) : Except Fault (List α) :=
  if n ≤ s.length then .ok (s.take n) else .error .panic

/-- The Go builtin `copy(dst, src)`: overwrites the first `min (len dst) (len src)`
elements of `dst` with those of `src`. -/
def copy {α : Type} (dst src : List α) : List α :=
  src.take dst.length ++ dst.drop src.length

/-- The Go expression `make([]float64, n)`. -/
def makeRow {K : Type} [Zero K] (n : Nat) : List K := List.replicate n 0

end GoSem

open GoSem

namespace Kramer

variable {K : Type}

/-- Function `isSquareMatrix` of `Kramer.go` (lines 228-244). -/
def isSquareMatrix (matrix : Mat K) : Bool :=
  if matrix.length == 0 then false
  else
    let rows := matrix.length
    match matrix with
    | [] => false
    | row0 :: _ =>
      let cols := row0.length
      if matrix.any (fun row => row.length != cols) then false
      else rows == cols

/-- Function `isAugmentedMatrixForCramer` of `Kramer.go` (lines 247-262). -/
def isAugmentedMatrixForCramer (matrix : Mat K) : Bool :=
  if matrix.length == 0 then false
  else
    let rows := matrix.length
    let cols := if rows > 0 then (match matrix with | [] => 0 | row0 :: _ => row0.length) else 0
    if matrix.any (fun row => row.length != cols) then false
    else decide (rows > 0) && cols == rows + 1

/-- Inner loop of `minor` (lines 215-221): copies row `i` of `matrix`, skipping column
`col`, into row `currentRow` of `minorMatrix`.  The state is `(minorMatrix, currentCol)`. -/
def minorInner (matrix : Mat K) (n i col currentRow : Nat) (minorMatrix : Mat K) :
    Except Fault (Mat K × Nat) :=
  (List.range n).foldlM (fun (st : Mat K × Nat) j =>
    if j = col then pure st
    else do
      let v ← index2 matrix i j
      let mm ← assign2 st.1 currentRow st.2 v
      pure (mm, st.2 + 1)) (minorMatrix, 0)

/-- Function `minor` of `Kramer.go` (lines 202-225).  The outer loop state is
`(minorMatrix, currentRow)`. -/
def minor [Zero K] (matrix : Mat K) (row col : Nat) : Except Fault (Mat K) := do
  let n := matrix.length
  if n = 0 then throw Fault.panic  -- make([][]float64, -1)
  let minorMatrix : Mat K := List.replicate (n - 1) (makeRow (n - 1))
  let st ← (List.range n).foldlM (fun (st : Mat K × Nat) i =>
    if i = row then pure st
    else do
      let st' ← minorInner matrix n i col st.2 st.1
      pure (st'.1, st.2 + 1)) (minorMatrix, 0)
  pure st.1

/-! Length bookkeeping needed for the termination of `determinant`. -/

/-- An invariant preserved by every successful step of a loop holds after the loop. -/
theorem foldlM_invariant {σ β : Type} (P : σ → Prop) (f : σ → β → Except Fault σ)
    (hf : ∀ s b s', P s → f s b = .ok s' → P s') :
    ∀ (l : List β) (s s' : σ), P s → l.foldlM f s = .ok s' → P s' := by
  intro l
  induction l with
  | nil =>
    intro s s' hs h
    simp only [List.foldlM, pure, Except.pure, Except.ok.injEq] at h
    exact h ▸ hs
  | cons b l ih =>
    intro s s' hs h
    simp only [List.foldlM, bind, Except.bind] at h
    cases hb : f s b with
    | error e => simp [hb] at h
    | ok s1 =>
      simp only [hb] at h
      exact ih s1 s' (hf s b s1 hs hb) h

theorem assign_length {α : Type} (s : List α) (i : Nat) (v : α) (s' : List α)
    (h : assign s i v = .ok s') : s'.length = s.length := by
  unfold assign at h
  split at h
  · cases h; simp
  · cases h

theorem assign2_length (m : Mat K) (i j : Nat) (v : K) (m' : Mat K)
    (h : assign2 m i j v = .ok m') : m'.length = m.length := by
  simp only [assign2, bind, Except.bind] at h
  cases hr : index m i with
  | error e => simp [hr] at h
  | ok r =>
    simp only [hr] at h
    cases hr' : assign r j v with
    | error e => simp [hr'] at h
    | ok r' =>
      simp only [hr'] at h
      exact assign_length _ _ _ _ h

theorem minorInner_length (matrix : Mat K) (n i col currentRow : Nat) (mm : Mat K)
    (st : Mat K × Nat) (h : minorInner matrix n i col currentRow mm = .ok st) :
    st.1.length = mm.length := by
  unfold minorInner at h
  refine foldlM_invariant (fun s : Mat K × Nat => s.1.length = mm.length) _ ?_ _ _ _ rfl h
  intro s j s' hs hstep
  by_cases hj : j = col
  · simp only [hj, if_true, pure, Except.pure, Except.ok.injEq] at hstep
    exact hstep ▸ hs
  · simp only [hj, if_false, bind, Except.bind] at hstep
    cases hv : index2 matrix i j with
    | error e => simp [hv] at hstep
    | ok v =>
      simp only [hv] at hstep
      cases ha : assign2 s.1 currentRow s.2 v with
      | error e => simp [ha] at hstep
      | ok m' =>
        simp only [ha, pure, Except.pure, Except.ok.injEq] at hstep
        rw [← hstep]
        simpa [assign2_length _ _ _ _ _ ha] using hs

theorem minor_length [Zero K] (matrix : Mat K) (row col : Nat) (mm : Mat K)
    (h : minor matrix row col = .ok mm) : mm.length = matrix.length - 1 := by
  unfold minor at h
  by_cases hn : matrix.length = 0
  · simp [hn, bind, Except.bind, throw, throwThe, MonadExceptOf.throw] at h
  · simp only [hn, if_false, bind, Except.bind, pure, Except.pure] at h
    split at h
    · cases h
    · rename_i st hst
      cases h
      have := foldlM_invariant (fun s : Mat K × Nat => s.1.length = matrix.length - 1) _ ?_ _ _ _
        (by simp) hst
      · exact this
      · intro s i s' hs hstep
        by_cases hi : i = row
        · simp only [hi, if_true, Except.ok.injEq] at hstep
          exact hstep ▸ hs
        · simp only [hi, if_false] at hstep
          cases hin : minorInner matrix matrix.length i col s.2 s.1 with
          | error e => simp [hin] at hstep
          | ok st' =>
            simp only [hin, Except.ok.injEq] at hstep
            rw [← hstep]
            simpa [minorInner_length _ _ _ _ _ _ _ hin] using hs

/-- Function `determinant` of `Kramer.go` (lines 108-143): cofactor expansion along the first row. -/
def determinant [CommRing K] (matrix : Mat K) : Except Fault K :=
  let n := matrix.length
  if isSquareMatrix matrix = false then .error .notSquare
  else if n = 1 then index2 matrix 0 0
  else if n = 2 then do
    let a ← index2 matrix 0 0
    let d ← index2 matrix 1 1
    let b ← index2 matrix 0 1
    let c ← index2 matrix 1 0
    pure (a * d - b * c)
  else
    (List.range n).foldlM (fun det j =>
      match hm : minor matrix 0 j with
      | .error e => .error e
      | .ok minorMatrix => do
        let minorDet ← determinant minorMatrix
        let sign : K := if j % 2 = 1 then -1 else 1
        let e ← index2 matrix 0 j
        pure (det + sign * e * minorDet)) 0
termination_by matrix.length
decreasing_by
  have hlen := minor_length matrix 0 j minorMatrix hm
  have hpos : matrix.length ≠ 0 := by
    intro h0
    have : matrix = [] := List.length_eq_zero.mp h0
    simp_all [isSquareMatrix]
  omega

/-- Value of the counter `currentCol` (resp. `currentRow`) of `minor` after the loop
has passed the indices below `k`, the index `skip` being skipped. -/
def skipCount (skip k : Nat) : Nat := if skip < k then k - 1 else k

/-- Body of `cramer` of `Kramer.go` (lines 147-198), with the determinant routine it
calls taken as the parameter `det`.  The loop states are
`(coefficientMatrix, constants)`, `solution` and `tempMatrix`. -/
def cramerWith [Field K] [DecidableEq K] (det : Mat K → Except Fault K) (matrix : Mat K) :
    Except Fault (List K) := do
  let n := matrix.length
  if isAugmentedMatrixForCramer matrix = false then throw Fault.badFormat
  let split ← (List.range n).foldlM (fun (st : Mat K × List K) i => do
    let row ← index matrix i
    let coeffRow ← sliceTo row n
    let coefficientMatrix ← assign st.1 i coeffRow
    let c ← index2 matrix i n
    let constants ← assign st.2 i c
    pure (coefficientMatrix, constants)) (List.replicate n [], makeRow n)
  let coefficientMatrix := split.1
  let constants := split.2
  let detA ← det coefficientMatrix
  if detA = 0 then throw Fault.zeroDet
  (List.range n).foldlM (fun (solution : List K) i => do
    let tempMatrix ← (List.range n).foldlM (fun (tempMatrix : Mat K) r => do
      let tempMatrix ← assign tempMatrix r (makeRow n)
      let dst ← index tempMatrix r
      let src ← index coefficientMatrix r
      let tempMatrix ← assign tempMatrix r (copy dst src)
      let c ← index constants r
      assign2 tempMatrix r i c) (List.replicate n [])
    let detAi ← det tempMatrix
    assign solution i (detAi / detA)) (makeRow n)

/-- Function `cramer` of `Kramer.go` (lines 147-198). -/
def cramer [Field K] [DecidableEq K] (matrix : Mat K) : Except Fault (List K) :=
  cramerWith determinant matrix

end Kramer

namespace CramerMT

variable {K : Type}

/-- Construction of `subMatrix` inside `determinant` of `Cramer_multithreading.go`
(lines 31-41): rows `1 .. n-1` of `matrix` without column `j`.  The inner loop state is
`(subMatrix, col)`. -/
def subMatrix [Zero K] (matrix : Mat K) (n j : Nat) : Except Fault (Mat K) :=
  if n = 0 then .error .panic  -- make([][]float64, -1)
  else (List.range' 1 (n - 1)).foldlM (fun (subMatrix : Mat K) i => do
    let subMatrix ← assign subMatrix (i - 1) (makeRow (n - 1))
    let st ← (List.range n).foldlM (fun (st : Mat K × Nat) k =>
      if k ≠ j then do
        let v ← index2 matrix i k
        let sub ← assign2 st.1 (i - 1) st.2 v
        pure (sub, st.2 + 1)
      else pure st) (subMatrix, 0)
    pure st.1) (List.replicate (n - 1) [])

theorem subMatrix_length [Zero K] (matrix : Mat K) (n j : Nat) (sub : Mat K)
    (h : subMatrix matrix n j = .ok sub) : sub.length = n - 1 ∧ n ≠ 0 := by
  unfold subMatrix at h
  by_cases hn : n = 0
  · simp [hn] at h
  simp only [hn, if_false] at h
  refine ⟨?_, hn⟩
  refine Kramer.foldlM_invariant (fun s : Mat K => s.length = n - 1) _ ?_ _ _ _ (by simp) h
  intro s i s' hs hstep
  simp only [bind, Except.bind, pure, Except.pure] at hstep
  cases ha : assign s (i - 1) (makeRow (n - 1)) with
  | error e => simp [ha] at hstep
  | ok s1 =>
    simp only [ha] at hstep
    split at hstep
    · cases hstep
    · rename_i st hst
      cases hstep
      have h1 : s1.length = n - 1 := by rw [Kramer.assign_length _ _ _ _ ha]; exact hs
      refine Kramer.foldlM_invariant (fun t : Mat K × Nat => t.1.length = n - 1) _ ?_ _ _ _ h1 hst
      intro t k t' ht hk
      by_cases hkj : k = j
      · simp only [hkj, ne_eq, not_true_eq_false, if_false, Except.ok.injEq] at hk
        exact hk ▸ ht
      · simp only [ne_eq, hkj, not_false_eq_true, if_true] at hk
        cases hv : index2 matrix i k with
        | error e => simp [hv] at hk
        | ok v =>
          simp only [hv] at hk
          cases hw : assign2 t.1 (i - 1) t.2 v with
          | error e => simp [hw] at hk
          | ok m' =>
            simp only [hw, Except.ok.injEq] at hk
            rw [← hk]
            simpa [Kramer.assign2_length _ _ _ _ _ hw] using ht

/-- Function `determinant` of `Cramer_multithreading.go` (lines 15-48): no shape check, the sign
is the power `math.Pow(-1, float64(j))`. -/
def determinant [CommRing K] (matrix : Mat K) : Except Fault K :=
  let n := matrix.length
  if n = 1 then index2 matrix 0 0
  else if n = 2 then do
    let a ← index2 matrix 0 0
    let d ← index2 matrix 1 1
    let b ← index2 matrix 0 1
    let c ← index2 matrix 1 0
    pure (a * d - b * c)
  else
    (List.range n).foldlM (fun det j =>
      match hs : subMatrix matrix n j with
      | .error e => .error e
      | .ok sub => do
        let e ← index2 matrix 0 j
        let d ← determinant sub
        pure (det + (-1) ^ j * e * d)) 0
termination_by matrix.length
decreasing_by
  have hlen := subMatrix_length matrix matrix.length j sub hs
  omega

/-- Function `replaceColumn` of `Cramer_multithreading.go` (lines 51-66). -/
def replaceColumn [Zero K] (matrix : Mat K) (column : List K) (colIndex : Nat) :
    Except Fault (Mat K) := do
  let n := matrix.length
  let newMatrix ← (List.range n).foldlM (fun (newMatrix : Mat K) i => do
    let newMatrix ← assign newMatrix i (makeRow n)
    (List.range n).foldlM (fun (newMatrix : Mat K) j => do
      let v ← index2 matrix i j
      assign2 newMatrix i j v) newMatrix) (List.replicate n [])
  (List.range n).foldlM (fun (newMatrix : Mat K) i => do
    let c ← index column i
    assign2 newMatrix i colIndex c) newMatrix

/-- Function `cramerParallel` of `Cramer_multithreading.go` (lines 69-105).

The result `none` is the Go `nil`.  The `n` goroutines share only the slice `solutions`
and the buffered channel `results` (capacity `n`, one send per goroutine, never read);
everything else they touch is read-only.  `sched` is the order in which the goroutines
perform their write to `solutions` and their send; the state of the fold is
`(solutions, results)`.  A panic inside a goroutine terminates the program. -/
def cramerParallel [Field K] [DecidableEq K] (sched : List Nat) (matrix : Mat K)
    (vector : List K) : Except Fault (Option (List K)) := do
  let n := matrix.length
  let detMain ← determinant matrix
  if detMain = 0 then return none
  let st ← sched.foldlM (fun (st : List K × List (Nat × K)) index => do
    let modifiedMatrix ← replaceColumn matrix vector index
    let detModified ← determinant modifiedMatrix
    let solutions ← assign st.1 index (detModified / detMain)
    pure (solutions, st.2 ++ [(index, detModified / detMain)])) (makeRow n, [])
  return some st.1

end CramerMT

/-! ## Vocabulary of the specification -/

namespace Spec

variable {K : Type}

/-- The augmented matrix `[A | b]`: row `i` of `A` followed by `b[i]`. -/
def augment (A : Mat K) (b : List K) : Mat K :=
  List.zipWith (fun row c => row ++ [c]) A b

/-- The coefficient block of an augmented matrix with `n` rows: its first `n` columns. -/
def coefficients (m : Mat K) : Mat K := m.map (fun row => row.take m.length)

/-- The constants column of an augmented matrix with `n` rows: column `n`. -/
def constants [Zero K] (m : Mat K) : List K := m.map (fun row => row.getD m.length 0)

/-- The matrix `A` with column `i` replaced, row by row, by the entries of `b`. -/
def withColumn (A : Mat K) (b : List K) (i : Nat) : Mat K :=
  List.zipWith (fun row c => row.set i c) A b

/-- Entry `(i, j)` of a list of rows (`0` outside the matrix). -/
def entry [Zero K] (M : Mat K) (i j : Nat) : K := (M.getD i []).getD j 0

/-- A list of rows is an `n × n` matrix. -/
def SquareOfSize (n : Nat) (M : Mat K) : Prop := M.length = n ∧ ∀ row ∈ M, row.length = n

instance (n : Nat) (M : Mat K) : Decidable (SquareOfSize n M) := by
  unfold SquareOfSize
  exact inferInstance

/-- The transpose of an `n × n` list of rows. -/
def transpose [Zero K] (n : Nat) (M : Mat K) : Mat K :=
  (List.range n).map (fun i => (List.range n).map (fun j => entry M j i))

/-- The list of rows `M` with rows `p` and `q` exchanged. -/
def swapRows (M : Mat K) (p q : Nat) : Mat K :=
  (M.set p (M.getD q [])).set q (M.getD p [])

/-- The `n × n` identity matrix as a list of rows. -/
def identity [Zero K] [One K] (n : Nat) : Mat K :=
  (List.range n).map (fun i => (List.range n).map (fun j => if i = j then 1 else 0))

/-- The row-list `M` read as an `n × n` matrix over `K`. -/
def toMatrix [Zero K] (n : Nat) (M : Mat K) : Matrix (Fin n) (Fin n) K :=
  Matrix.of (fun i j => entry M i j)

/-- The list `v` read as a vector indexed by `Fin n`. -/
def toVector [Zero K] (n : Nat) (v : List K) : Fin n → K := fun i => v.getD i 0

end Spec

/-! ## Basic facts about the Go primitives -/

namespace GoSem

variable {K : Type}

theorem index_ok {α : Type} (s : List α) (i : Nat) (d : α) (h : i < s.length) :
    index s i = .ok (s.getD i d) := by
  simp [index, List.getD, List.getElem?_eq_getElem h]

theorem index_panic {α : Type} (s : List α) (i : Nat) (h : s.length ≤ i) :
    index s i = .error .panic := by
  simp [index, List.getElem?_eq_none h]

theorem assign_ok {α : Type} (s : List α) (i : Nat) (v : α) (h : i < s.length) :
    assign s i v = .ok (s.set i v) := by
  simp [assign, h]

theorem index2_ok [Zero K] (m : Mat K) (i j : Nat) (hi : i < m.length)
    (hj : j < (m.getD i []).length) : index2 m i j = .ok ((m.getD i []).getD j 0) := by
  unfold index2
  rw [index_ok m i [] hi]
  exact index_ok _ j (0 : K) hj

theorem assign2_ok (m : Mat K) (i j : Nat) (v : K) (hi : i < m.length)
    (hj : j < (m.getD i []).length) :
    assign2 m i j v = .ok (m.set i ((m.getD i []).set j v)) := by
  unfold assign2
  rw [index_ok m i [] hi]
  show (assign (m.getD i []) j v >>= fun r => assign m i r) = _
  rw [assign_ok _ j v hj]
  exact assign_ok m i _ hi

theorem foldlM_range_succ {σ : Type} (f : σ → Nat → Except Fault σ) (k : Nat) (s : σ) :
    (List.range (k + 1)).foldlM f s = (List.range k).foldlM f s >>= fun t => f t k := by
  rw [List.range_succ, List.foldlM_append]
  simp [List.foldlM]

theorem take_drop_set {α : Type} (E O : List α) (c : Nat) (v : α) (hE : E[c]? = some v)
    (hO : c < O.length) :
    (E.take c ++ O.drop c).set c v = E.take (c + 1) ++ O.drop (c + 1) := by
  have hE1 : c < E.length := by
    by_contra h
    rw [List.getElem?_eq_none (by omega)] at hE
    cases hE
  have h1 : (E.take c).length = c := by rw [List.length_take]; omega
  have h2 : O.drop c = O[c] :: O.drop (c + 1) := List.drop_eq_getElem_cons hO
  rw [h2, List.take_succ, hE, List.set_append, h1]
  simp only [lt_irrefl, if_false, Nat.sub_self, List.set_cons_zero, Option.toList,
    List.append_assoc, List.singleton_append]


theorem set_getD_self {α : Type} (l : List α) (i : Nat) (d : α) (h : i < l.length) :
    l.set i (l.getD i d) = l := by
  apply List.ext_getElem?
  intro j
  rw [List.getElem?_set]
  by_cases hij : i = j
  · subst hij
    simp [h, List.getD, List.getElem?_eq_getElem h]
  · simp [hij]

theorem getD_set_self {α : Type} (l : List α) (i : Nat) (v d : α) (h : i < l.length) :
    (l.set i v).getD i d = v := by
  simp [List.getD, List.getElem?_set, h]

theorem getElem?_eq_some_getD {α : Type} (l : List α) (i : Nat) (d : α) (h : i < l.length) :
    l[i]? = some (l.getD i d) := by
  simp [List.getD, List.getElem?_eq_getElem h]

theorem getElem?_eraseIdx_eq {α : Type} (l : List α) (col c : Nat) :
    (l.eraseIdx col)[c]? = if c < col then l[c]? else l[c + 1]? := by
  rw [List.getElem?_eraseIdx]

end GoSem

namespace Kramer
variable {K : Type}
open Spec

theorem minorInner_upto [Zero K] (matrix : Mat K) (n i col cr : Nat) (mm : Mat K)
    (hi : i < matrix.length) (hrow : (matrix.getD i []).length = n) (hcol : col < n)
    (hcr : cr < mm.length) (hold : (mm.getD cr []).length = n - 1) :
    ∀ k, k ≤ n → minorInner matrix k i col cr mm =
      .ok (mm.set cr (((matrix.getD i []).eraseIdx col).take (skipCount col k) ++
        (mm.getD cr []).drop (skipCount col k)), skipCount col k) := by
  intro k
  induction k with
  | zero =>
    intro _
    simp only [minorInner, List.range_zero, List.foldlM, pure, Except.pure, skipCount,
      Nat.not_lt_zero, if_false, List.take_zero, List.drop_zero, List.nil_append]
    rw [set_getD_self _ _ _ hcr]
  | succ k ih =>
    intro hk
    have ih' := ih (by omega)
    unfold minorInner at ih' ⊢
    rw [foldlM_range_succ, ih']
    show (if k = col then _ else _) = _
    by_cases hkc : k = col
    · subst hkc
      simp [skipCount, pure, Except.pure]
    · simp only [hkc, if_false]
      have hc : skipCount col k < n - 1 := by unfold skipCount; split <;> omega
      have hc1 : skipCount col (k + 1) = skipCount col k + 1 := by
        unfold skipCount; split <;> split <;> omega
      rw [index2_ok matrix i k hi (by omega)]
      have hE : ((matrix.getD i []).eraseIdx col).length = n - 1 := by
        rw [List.length_eraseIdx, if_pos (by omega), hrow]
      have hrowlen : ((mm.set cr ((List.take (skipCount col k) ((matrix.getD i []).eraseIdx col)) ++
          List.drop (skipCount col k) (mm.getD cr []))).getD cr []).length = n - 1 := by
        rw [getD_set_self _ _ _ _ hcr, List.length_append, List.length_take, List.length_drop]
        omega
      show (assign2 _ cr (skipCount col k) _ >>= fun mm' => pure (mm', skipCount col k + 1)) = _
      rw [assign2_ok _ _ _ _ (by simpa using hcr) (by omega)]
      rw [getD_set_self _ _ _ _ hcr, List.set_set, hc1]
      rw [take_drop_set _ _ _ _ _ (by omega)]
      · rfl
      · rw [getElem?_eraseIdx_eq]
        unfold skipCount
        by_cases h1 : col < k
        · have h2 : ¬ (k - 1 < col) := by omega
          have h3 : k - 1 + 1 = k := by omega
          simp only [h1, if_true, h2, if_false, h3]
          exact getElem?_eq_some_getD _ _ _ (by omega)
        · have h2 : k < col := by omega
          simp only [h1, if_false, h2, if_true]
          exact getElem?_eq_some_getD _ _ _ (by omega)

theorem minorInner_eq [Zero K] (matrix : Mat K) (n i col cr : Nat) (mm : Mat K)
    (hi : i < matrix.length) (hrow : (matrix.getD i []).length = n) (hcol : col < n)
    (hcr : cr < mm.length) (hold : (mm.getD cr []).length = n - 1) :
    minorInner matrix n i col cr mm =
      .ok (mm.set cr ((matrix.getD i []).eraseIdx col), n - 1) := by
  rw [minorInner_upto matrix n i col cr mm hi hrow hcol hcr hold n le_rfl]
  have hE : ((matrix.getD i []).eraseIdx col).length = n - 1 := by
    rw [List.length_eraseIdx, if_pos (by omega), hrow]
  have hs : skipCount col n = n - 1 := by simp [skipCount, hcol]
  rw [hs, List.take_of_length_le (by omega), List.drop_of_length_le (by omega),
    List.append_nil]


/-- The functional reading of `minor`: drop row `row`, then drop column `col` of each row. -/
theorem minorOuter_upto [Zero K] (matrix : Mat K) (n row col : Nat)
    (hsq : SquareOfSize n matrix) (hrow : row < n) (hcol : col < n) :
    ∀ k, k ≤ n →
      (List.range k).foldlM (fun (st : Mat K × Nat) i =>
        if i = row then pure st
        else do
          let st' ← minorInner matrix n i col st.2 st.1
          pure (st'.1, st.2 + 1)) (List.replicate (n - 1) (makeRow (n - 1)), 0) =
      (.ok (((matrix.eraseIdx row).map (fun r => r.eraseIdx col)).take (skipCount row k) ++
        (List.replicate (n - 1) (makeRow (n - 1))).drop (skipCount row k), skipCount row k) :
        Except Fault (Mat K × Nat)) := by
  obtain ⟨hlen, hrows⟩ := hsq
  have hT : ((matrix.eraseIdx row).map (fun r => r.eraseIdx col)).length = n - 1 := by
    rw [List.length_map, List.length_eraseIdx, if_pos (by omega), hlen]
  intro k
  induction k with
  | zero =>
    intro _
    simp [skipCount, List.foldlM, pure, Except.pure]
  | succ k ih =>
    intro hk
    rw [foldlM_range_succ, ih (by omega)]
    show (if k = row then _ else _) = _
    by_cases hkr : k = row
    · subst hkr
      simp [skipCount, pure, Except.pure]
    · simp only [hkr, if_false]
      have hc : skipCount row k < n - 1 := by unfold skipCount; split <;> omega
      have hc1 : skipCount row (k + 1) = skipCount row k + 1 := by
        unfold skipCount; split <;> split <;> omega
      have hk' : k < matrix.length := by omega
      have hkrow : (matrix.getD k []).length = n := by
        apply hrows
        rw [List.getD_eq_getElem _ _ hk']
        exact List.getElem_mem _
      have hold : ((((matrix.eraseIdx row).map (fun r => r.eraseIdx col)).take (skipCount row k) ++
          (List.replicate (n - 1) (makeRow (n - 1) : List K)).drop (skipCount row k)).getD
            (skipCount row k) []) = makeRow (n - 1) := by
        rw [List.getD_eq_getElem?_getD,
          List.getElem?_append_right (by rw [List.length_take]; omega)]
        rw [List.length_take, Nat.min_eq_left (by omega), Nat.sub_self, List.getElem?_drop]
        simp [List.getElem?_replicate, hc]
      have hmm : skipCount row k < (((matrix.eraseIdx row).map (fun r => r.eraseIdx col)).take
          (skipCount row k) ++
          (List.replicate (n - 1) (makeRow (n - 1) : List K)).drop (skipCount row k)).length := by
        rw [List.length_append, List.length_take, List.length_drop, List.length_replicate]
        omega
      rw [minorInner_eq matrix n k col _ _ hk' hkrow hcol hmm (by rw [hold]; simp [makeRow])]
      show Except.ok _ = _
      rw [hc1, take_drop_set _ _ _ _ _ (by rw [List.length_replicate]; omega)]
      rw [List.getElem?_map, getElem?_eraseIdx_eq]
      unfold skipCount
      by_cases h1 : row < k
      · have h2 : ¬ (k - 1 < row) := by omega
        have h3 : k - 1 + 1 = k := by omega
        simp only [h1, if_true, h2, if_false, h3]
        rw [getElem?_eq_some_getD _ _ [] hk']; rfl
      · have h2 : k < row := by omega
        simp only [h1, if_false, h2, if_true]
        rw [getElem?_eq_some_getD _ _ [] hk']; rfl

theorem minor_eq [Zero K] (matrix : Mat K) (n row col : Nat)
    (hsq : SquareOfSize n matrix) (hrow : row < n) (hcol : col < n) :
    minor matrix row col = .ok ((matrix.eraseIdx row).map (fun r => r.eraseIdx col)) := by
  have hlen := hsq.1
  have hT : ((matrix.eraseIdx row).map (fun r => r.eraseIdx col)).length = n - 1 := by
    rw [List.length_map, List.length_eraseIdx, if_pos (by omega), hlen]
  unfold minor
  have hn : ¬ n = 0 := by omega
  simp only [hlen, hn, if_false, pure_bind]
  rw [minorOuter_upto matrix n row col hsq hrow hcol n le_rfl]
  have hs : skipCount row n = n - 1 := by simp [skipCount, hrow]
  show Except.ok _ = _
  rw [hs, List.take_of_length_le (by omega), List.drop_of_length_le (by simp),
    List.append_nil]


theorem isSquareMatrix_iff (matrix : Mat K) :
    isSquareMatrix matrix = true ↔
      1 ≤ matrix.length ∧ ∀ row ∈ matrix, row.length = matrix.length := by
  cases matrix with
  | nil => simp [isSquareMatrix]
  | cons row0 rest =>
    have hdef : isSquareMatrix (row0 :: rest) =
        (if (row0 :: rest).any (fun row => row.length != row0.length) then false
         else (rest.length + 1 == row0.length)) := by
      simp [isSquareMatrix]
    rw [hdef]
    by_cases hany : ((row0 :: rest).any fun row => row.length != row0.length) = true
    · rw [if_pos hany]
      simp only [Bool.false_eq_true, false_iff, not_and]
      intro _ hall
      rw [List.any_eq_true] at hany
      obtain ⟨x, hx, hne⟩ := hany
      have h1 := hall x hx
      have h2 := hall row0 (List.mem_cons_self _ _)
      simp only [bne_iff_ne, ne_eq] at hne
      exact hne (by rw [h1, h2])
    · rw [if_neg hany]
      have hall : ∀ x ∈ row0 :: rest, x.length = row0.length := by
        intro x hx
        by_contra hne
        exact hany (List.any_eq_true.mpr ⟨x, hx, by simpa using hne⟩)
      simp only [beq_iff_eq, List.length_cons]
      constructor
      · intro h
        exact ⟨by omega, fun r hr => by rw [hall r hr, h]⟩
      · rintro ⟨_, h⟩
        exact (h row0 (List.mem_cons_self _ _)).symm

theorem isSquareMatrix_of_isSquare (n : Nat) (matrix : Mat K) (hn : 1 ≤ n)
    (hsq : SquareOfSize n matrix) : isSquareMatrix matrix = true := by
  rw [isSquareMatrix_iff]
  obtain ⟨hlen, hrows⟩ := hsq
  exact ⟨by omega, fun r hr => by rw [hrows r hr, hlen]⟩

theorem isSquare_getD (n : Nat) (M : Mat K) (hsq : SquareOfSize n M) (i : Nat) (hi : i < n) :
    (M.getD i []).length = n := by
  apply hsq.2
  rw [List.getD_eq_getElem _ _ (by rw [hsq.1]; exact hi)]
  exact List.getElem_mem _

theorem index2_entry [Zero K] (n : Nat) (M : Mat K) (hsq : SquareOfSize n M) (i j : Nat)
    (hi : i < n) (hj : j < n) : index2 M i j = .ok (entry M i j) :=
  index2_ok M i j (by rw [hsq.1]; exact hi) (by rw [isSquare_getD n M hsq i hi]; exact hj)

/-- The functional minor of a square matrix is square. -/
theorem isSquare_minor (n : Nat) (M : Mat K) (hsq : SquareOfSize (n + 1) M) (row col : Nat)
    (hrow : row < n + 1) (hcol : col < n + 1) :
    SquareOfSize n ((M.eraseIdx row).map (fun r => r.eraseIdx col)) := by
  obtain ⟨hlen, hrows⟩ := hsq
  constructor
  · rw [List.length_map, List.length_eraseIdx, if_pos (by omega), hlen]; rfl
  · intro r hr
    rw [List.mem_map] at hr
    obtain ⟨r0, hr0, rfl⟩ := hr
    have := hrows r0 (List.mem_of_mem_eraseIdx hr0)
    rw [List.length_eraseIdx, if_pos (by omega), this]; rfl

theorem getD_map_eraseIdx [Zero K] (o : Option (List K)) (col b : Nat) :
    ((o.map (fun r => r.eraseIdx col)).getD [])[b]?.getD 0 =
      (o.getD [])[if b < col then b else b + 1]?.getD 0 := by
  cases o with
  | none => simp
  | some r =>
    simp only [Option.map_some', Option.getD_some, getElem?_eraseIdx_eq]
    split <;> rfl

theorem entry_minor [Zero K] (M : Mat K) (row col a b : Nat) :
    entry ((M.eraseIdx row).map (fun r => r.eraseIdx col)) a b =
      entry M (if a < row then a else a + 1) (if b < col then b else b + 1) := by
  unfold entry
  simp only [List.getD_eq_getElem?_getD, List.getElem?_map, getElem?_eraseIdx_eq]
  by_cases ha : a < row
  · simp only [ha, if_true]
    exact getD_map_eraseIdx _ _ _
  · simp only [ha, if_false]
    exact getD_map_eraseIdx _ _ _

/-- A loop that adds the term `t j` at iteration `j` computes the sum of the terms. -/
theorem foldlM_sum [AddCommMonoid K] (f : K → Nat → Except Fault K) (t : Nat → K) (n : Nat)
    (hf : ∀ acc j, j < n → f acc j = .ok (acc + t j)) :
    ∀ k, k ≤ n → (List.range k).foldlM f 0 = .ok (∑ j in Finset.range k, t j) := by
  intro k
  induction k with
  | zero => intro _; rfl
  | succ k ih =>
    intro hk
    rw [foldlM_range_succ, ih (by omega), Finset.sum_range_succ]
    exact hf _ k (by omega)


theorem toMatrix_minor [Zero K] (n : Nat) (M : Mat K) (j : Fin (n + 1)) :
    toMatrix n ((M.eraseIdx 0).map (fun r => r.eraseIdx j)) =
      (toMatrix (n + 1) M).submatrix Fin.succ j.succAbove := by
  ext a b
  simp only [toMatrix, Matrix.of_apply, Matrix.submatrix_apply, entry_minor, Nat.not_lt_zero,
    if_false, Fin.val_succ]
  congr 1
  unfold Fin.succAbove
  by_cases h : b.castSucc < j
  · have h' : (b : Nat) < j := h
    simp [h, h']
  · have h' : ¬ (b : Nat) < j := h
    simp [h, h']

/-- The sign of the cofactor expansion, computed by parity as in `Kramer.go`. -/
theorem sign_parity [Ring K] (j : Nat) : (if j % 2 = 1 then (-1 : K) else 1) = (-1) ^ j := by
  rcases Nat.even_or_odd j with h | h
  · rw [h.neg_one_pow, if_neg (by rw [Nat.even_iff] at h; omega)]
  · rw [h.neg_one_pow, if_pos (Nat.odd_iff.mp h)]

theorem determinant_eq_det [CommRing K] :
    ∀ (n : Nat) (M : Mat K), 1 ≤ n → SquareOfSize n M →
      determinant M = .ok (toMatrix n M).det := by
  intro n
  induction n with
  | zero => intro M h; omega
  | succ n ih =>
    intro M _ hsq
    have hsqb := isSquareMatrix_of_isSquare (n + 1) M (by omega) hsq
    have hlen := hsq.1
    rw [determinant]
    simp only [hsqb, Bool.true_eq_false, if_false, hlen]
    by_cases h1 : n + 1 = 1
    · have hn : n = 0 := by omega
      subst hn
      simp only [if_true]
      rw [index2_entry 1 M hsq 0 0 (by omega) (by omega), Matrix.det_fin_one]
      rfl
    · rw [if_neg h1]
      by_cases h2 : n + 1 = 2
      · have hn : n = 1 := by omega
        subst hn
        simp only [if_true]
        rw [index2_entry 2 M hsq 0 0 (by omega) (by omega)]
        show (index2 M 1 1 >>= fun d => _) = _
        rw [index2_entry 2 M hsq 1 1 (by omega) (by omega)]
        show (index2 M 0 1 >>= fun b => _) = _
        rw [index2_entry 2 M hsq 0 1 (by omega) (by omega)]
        show (index2 M 1 0 >>= fun c => _) = _
        rw [index2_entry 2 M hsq 1 0 (by omega) (by omega), Matrix.det_fin_two]
        rfl
      · rw [if_neg h2]
        rw [foldlM_sum _ (fun j => (-1) ^ j * entry M 0 j *
          (toMatrix n ((M.eraseIdx 0).map (fun r => r.eraseIdx j))).det) (n + 1) ?_ (n + 1) le_rfl]
        · rw [Matrix.det_succ_row_zero, Finset.sum_range]
          congr 1
          apply Finset.sum_congr rfl
          intro j _
          rw [toMatrix_minor]
          rfl
        · intro acc j hj
          have hmin := minor_eq M (n + 1) 0 j hsq (by omega) hj
          split
          · rename_i e heq
            rw [hmin] at heq
            cases heq
          · rename_i mm heq
            rw [hmin] at heq
            cases heq
            rw [ih _ (by omega) (isSquare_minor n M hsq 0 j (by omega) hj)]
            show (index2 M 0 j >>= fun e => _) = _
            rw [index2_entry (n + 1) M hsq 0 j (by omega) hj, sign_parity]
            rfl

end Kramer

namespace GoSem
variable {K : Type}

theorem map_range_getElem? {α : Type} (val : Nat → α) (n c : Nat) (h : c < n) :
    ((List.range n).map val)[c]? = some (val c) := by
  rw [List.getElem?_map, List.getElem?_range h]
  rfl

/-- A loop over `0 .. n-1` whose iteration `i` stores `val i` at index `i`. -/
theorem foldlM_fill {α : Type} (f : List α → Nat → Except Fault (List α)) (val : Nat → α)
    (n : Nat) (init : List α) (hinit : init.length = n)
    (hf : ∀ acc i, i < n → acc.length = n → acc[i]? = init[i]? →
      f acc i = .ok (acc.set i (val i))) :
    ∀ k, k ≤ n → (List.range k).foldlM f init =
      .ok (((List.range n).map val).take k ++ init.drop k) := by
  intro k
  induction k with
  | zero => intro _; rfl
  | succ k ih =>
    intro hk
    rw [foldlM_range_succ, ih (by omega)]
    show f _ k = _
    rw [hf _ k (by omega) (by simp [hinit]; omega) (by
      rw [List.getElem?_append_right (by simp), List.getElem?_drop]
      simp only [List.length_take, List.length_map, List.length_range]
      rw [Nat.min_eq_left (by omega), Nat.sub_self, Nat.add_zero])]
    rw [take_drop_set _ _ _ _ (map_range_getElem? val n k (by omega)) (by omega)]

theorem foldlM_fill_all {α : Type} (f : List α → Nat → Except Fault (List α)) (val : Nat → α)
    (n : Nat) (init : List α) (hinit : init.length = n)
    (hf : ∀ acc i, i < n → acc.length = n → acc[i]? = init[i]? →
      f acc i = .ok (acc.set i (val i))) :
    (List.range n).foldlM f init = .ok ((List.range n).map val) := by
  rw [foldlM_fill f val n init hinit hf n le_rfl, List.take_of_length_le (by simp),
    List.drop_of_length_le (by omega), List.append_nil]

/-- A loop over `0 .. n-1` whose iteration `i` stores at index `i` of two slices. -/
theorem foldlM_fill2 {α β : Type} (f : List α × List β → Nat → Except Fault (List α × List β))
    (va : Nat → α) (vb : Nat → β) (n : Nat) (ia : List α) (ib : List β)
    (hia : ia.length = n) (hib : ib.length = n)
    (hf : ∀ acc i, i < n → acc.1.length = n → acc.2.length = n →
      f acc i = .ok (acc.1.set i (va i), acc.2.set i (vb i))) :
    ∀ k, k ≤ n → (List.range k).foldlM f (ia, ib) =
      .ok (((List.range n).map va).take k ++ ia.drop k,
        ((List.range n).map vb).take k ++ ib.drop k) := by
  intro k
  induction k with
  | zero => intro _; rfl
  | succ k ih =>
    intro hk
    rw [foldlM_range_succ, ih (by omega)]
    show f _ k = _
    rw [hf _ k (by omega) (by simp [hia]; omega) (by simp [hib]; omega)]
    simp only
    rw [take_drop_set _ _ _ _ (map_range_getElem? va n k (by omega)) (by omega),
      take_drop_set _ _ _ _ (map_range_getElem? vb n k (by omega)) (by omega)]

theorem foldlM_fill2_all {α β : Type}
    (f : List α × List β → Nat → Except Fault (List α × List β))
    (va : Nat → α) (vb : Nat → β) (n : Nat) (ia : List α) (ib : List β)
    (hia : ia.length = n) (hib : ib.length = n)
    (hf : ∀ acc i, i < n → acc.1.length = n → acc.2.length = n →
      f acc i = .ok (acc.1.set i (va i), acc.2.set i (vb i))) :
    (List.range n).foldlM f (ia, ib) =
      .ok ((List.range n).map va, (List.range n).map vb) := by
  rw [foldlM_fill2 f va vb n ia ib hia hib hf n le_rfl, List.take_of_length_le (by simp),
    List.take_of_length_le (by simp), List.drop_of_length_le (by omega),
    List.drop_of_length_le (by omega), List.append_nil, List.append_nil]

theorem copy_makeRow [Zero K] (src : List K) (n : Nat) (h : src.length = n) :
    copy (makeRow n) src = src := by
  unfold copy makeRow
  rw [List.length_replicate, List.take_of_length_le (by omega),
    List.drop_of_length_le (by simp; omega), List.append_nil]

end GoSem

namespace Kramer
variable {K : Type}
open Spec

theorem isAugmented_iff (matrix : Mat K) :
    isAugmentedMatrixForCramer matrix = true ↔
      1 ≤ matrix.length ∧ ∀ row ∈ matrix, row.length = matrix.length + 1 := by
  cases matrix with
  | nil => simp [isAugmentedMatrixForCramer]
  | cons row0 rest =>
    have hdef : isAugmentedMatrixForCramer (row0 :: rest) =
        (if (row0 :: rest).any (fun row => row.length != row0.length) then false
         else (row0.length == rest.length + 1 + 1)) := by
      simp [isAugmentedMatrixForCramer]
    rw [hdef]
    by_cases hany : ((row0 :: rest).any fun row => row.length != row0.length) = true
    · rw [if_pos hany]
      simp only [Bool.false_eq_true, false_iff, not_and]
      intro _ hall
      rw [List.any_eq_true] at hany
      obtain ⟨x, hx, hne⟩ := hany
      have h1 := hall x hx
      have h2 := hall row0 (List.mem_cons_self _ _)
      simp only [bne_iff_ne, ne_eq] at hne
      exact hne (by rw [h1, h2])
    · rw [if_neg hany]
      have hall : ∀ x ∈ row0 :: rest, x.length = row0.length := by
        intro x hx
        by_contra hne
        exact hany (List.any_eq_true.mpr ⟨x, hx, by simpa using hne⟩)
      simp only [beq_iff_eq, List.length_cons]
      constructor
      · intro h
        exact ⟨by omega, fun r hr => by rw [hall r hr, h]⟩
      · rintro ⟨_, h⟩
        exact h row0 (List.mem_cons_self _ _)

theorem map_eq_map_range {α β : Type} (l : List α) (d : α) (g : α → β) :
    l.map g = (List.range l.length).map (fun i => g (l.getD i d)) := by
  apply List.ext_getElem?
  intro i
  by_cases hi : i < l.length
  · rw [map_range_getElem? _ _ _ hi, List.getElem?_map, getElem?_eq_some_getD l i d hi]
    rfl
  · rw [List.getElem?_eq_none (by simp; omega), List.getElem?_eq_none (by simp; omega)]

theorem zipWith_eq_map_range {α β γ : Type} (l : List α) (l' : List β) (d : α) (d' : β)
    (g : α → β → γ) (h : l'.length = l.length) :
    List.zipWith g l l' = (List.range l.length).map (fun i => g (l.getD i d) (l'.getD i d')) := by
  apply List.ext_getElem?
  intro i
  by_cases hi : i < l.length
  · rw [map_range_getElem? _ _ _ hi, List.getElem?_zipWith,
      getElem?_eq_some_getD l i d hi, getElem?_eq_some_getD l' i d' (by omega)]
  · rw [List.getElem?_eq_none (by simp; omega), List.getElem?_eq_none (by simp; omega)]

theorem isSquare_coefficients (m : Mat K) (h : isAugmentedMatrixForCramer m = true) :
    SquareOfSize m.length (coefficients m) := by
  rw [isAugmented_iff] at h
  refine ⟨by simp [coefficients], ?_⟩
  intro row hrow
  simp only [coefficients, List.mem_map] at hrow
  obtain ⟨r, hr, rfl⟩ := hrow
  rw [List.length_take, h.2 r hr]
  omega

theorem length_constants [Zero K] (m : Mat K) : (constants m).length = m.length := by
  simp [constants]

/-- The first loop of `cramer` splits the augmented matrix into the coefficient block and
the constants column. -/
theorem split_loop [Zero K] (m : Mat K) (h : isAugmentedMatrixForCramer m = true) :
    (List.range m.length).foldlM (fun (st : Mat K × List K) i => do
      let row ← index m i
      let coeffRow ← sliceTo row m.length
      let coefficientMatrix ← assign st.1 i coeffRow
      let c ← index2 m i m.length
      let constants ← assign st.2 i c
      pure (coefficientMatrix, constants)) (List.replicate m.length [], makeRow m.length) =
    .ok (coefficients m, constants m) := by
  have h' := (isAugmented_iff m).mp h
  have hrow : ∀ i, i < m.length → (m.getD i []).length = m.length + 1 := by
    intro i hi
    apply h'.2
    rw [List.getD_eq_getElem _ _ hi]
    exact List.getElem_mem _
  rw [foldlM_fill2_all _ (fun i => (m.getD i []).take m.length)
    (fun i => (m.getD i []).getD m.length 0) m.length _ _ (by simp) (by simp [makeRow])]
  · rw [coefficients, constants, map_eq_map_range m [] (fun row => row.take m.length),
      map_eq_map_range m [] (fun row => row.getD m.length 0)]
  · intro acc i hi h1 h2
    show (index m i >>= fun row => _) = _
    rw [index_ok m i [] hi]
    show (sliceTo _ _ >>= fun coeffRow => _) = _
    rw [sliceTo, if_pos (by rw [hrow i hi]; omega)]
    show (assign _ _ _ >>= fun cm => _) = _
    rw [assign_ok _ _ _ (by omega)]
    show (index2 m i m.length >>= fun c => _) = _
    rw [index2_ok m i m.length hi (by rw [hrow i hi]; omega)]
    show (assign _ _ _ >>= fun cs => _) = _
    rw [assign_ok _ _ _ (by omega)]
    rfl

/-- The inner loop of `cramer` builds the coefficient matrix with column `i` replaced by
the constants. -/
theorem temp_loop [Zero K] (n : Nat) (A : Mat K) (b : List K) (i : Nat)
    (hA : SquareOfSize n A) (hb : b.length = n) (hi : i < n) :
    (List.range n).foldlM (fun (tempMatrix : Mat K) r => do
      let tempMatrix ← assign tempMatrix r (makeRow n)
      let dst ← index tempMatrix r
      let src ← index A r
      let tempMatrix ← assign tempMatrix r (copy dst src)
      let c ← index b r
      assign2 tempMatrix r i c) (List.replicate n []) =
    .ok (withColumn A b i) := by
  rw [foldlM_fill_all _ (fun r => (A.getD r []).set i (b.getD r 0)) n _ (by simp)]
  · rw [withColumn, zipWith_eq_map_range A b [] 0 _ (by rw [hb, hA.1]), hA.1]
  · intro acc r hr hacc _
    have hAr := isSquare_getD n A hA r hr
    show (assign acc r (makeRow n) >>= fun tm => _) = _
    rw [assign_ok _ _ _ (by omega)]
    show (index _ r >>= fun dst => _) = _
    rw [index_ok _ r [] (by simp; omega), getD_set_self _ _ _ _ (by omega)]
    show (index A r >>= fun src => _) = _
    rw [index_ok A r [] (by rw [hA.1]; exact hr)]
    show (assign _ r _ >>= fun tm => _) = _
    rw [assign_ok _ _ _ (by simp; omega), copy_makeRow _ n hAr, List.set_set]
    show (index b r >>= fun c => _) = _
    rw [index_ok b r 0 (by omega)]
    show assign2 _ r i _ = _
    rw [assign2_ok _ _ _ _ (by simp; omega)
      (by rw [getD_set_self _ _ _ _ (by omega), hAr]; exact hi)]
    rw [getD_set_self _ _ _ _ (by omega), List.set_set]


theorem cramerWith_badFormat [Field K] [DecidableEq K] (det : Mat K → Except Fault K)
    (m : Mat K) (h : isAugmentedMatrixForCramer m = false) :
    cramerWith det m = .error .badFormat := by
  unfold cramerWith
  simp only [h, if_true]
  rfl

theorem cramerWith_unfold [Field K] [DecidableEq K] (det : Mat K → Except Fault K)
    (m : Mat K) (h : isAugmentedMatrixForCramer m = true) :
    cramerWith det m = (det (coefficients m) >>= fun detA =>
      if detA = 0 then .error .zeroDet
      else (List.range m.length).foldlM (fun (solution : List K) i => do
        let tempMatrix ← (List.range m.length).foldlM (fun (tempMatrix : Mat K) r => do
          let tempMatrix ← assign tempMatrix r (makeRow m.length)
          let dst ← index tempMatrix r
          let src ← index (coefficients m) r
          let tempMatrix ← assign tempMatrix r (copy dst src)
          let c ← index (constants m) r
          assign2 tempMatrix r i c) (List.replicate m.length [])
        let detAi ← det tempMatrix
        assign solution i (detAi / detA)) (makeRow m.length)) := by
  unfold cramerWith
  simp only [h, Bool.true_eq_false, if_false, pure_bind]
  rw [split_loop m h]
  rfl

theorem cramerWith_zeroDet [Field K] [DecidableEq K] (det : Mat K → Except Fault K)
    (m : Mat K) (h : isAugmentedMatrixForCramer m = true)
    (hdet : det (coefficients m) = .ok 0) : cramerWith det m = .error .zeroDet := by
  rw [cramerWith_unfold det m h, hdet]
  show (if (0 : K) = 0 then _ else _) = _
  rw [if_pos rfl]

theorem cramerWith_ok [Field K] [DecidableEq K] (det : Mat K → Except Fault K)
    (m : Mat K) (h : isAugmentedMatrixForCramer m = true) (d : K) (dets : Nat → K)
    (hdet : det (coefficients m) = .ok d) (hd : d ≠ 0)
    (hdets : ∀ i, i < m.length →
      det (withColumn (coefficients m) (constants m) i) = .ok (dets i)) :
    cramerWith det m = .ok ((List.range m.length).map (fun i => dets i / d)) := by
  rw [cramerWith_unfold det m h, hdet]
  show (if d = 0 then _ else _) = _
  rw [if_neg hd]
  apply foldlM_fill_all _ _ _ _ (by simp [makeRow])
  intro acc i hi hacc _
  show ((List.range m.length).foldlM _ _ >>= fun tempMatrix => _) = _
  rw [temp_loop m.length (coefficients m) (constants m) i (isSquare_coefficients m h)
    (length_constants m) hi]
  show (det _ >>= fun detAi => _) = _
  rw [hdets i hi]
  exact assign_ok _ _ _ (by omega)


theorem entry_map_range [Zero K] (n : Nat) (g : Nat → Nat → K) (i j : Nat) (hi : i < n)
    (hj : j < n) :
    entry ((List.range n).map (fun i => (List.range n).map (fun j => g i j))) i j = g i j := by
  unfold entry
  simp only [List.getD_eq_getElem?_getD]
  rw [map_range_getElem? _ n i hi, Option.getD_some, map_range_getElem? _ n j hj,
    Option.getD_some]

theorem isSquare_map_range (n : Nat) (g : Nat → Nat → K) :
    SquareOfSize n ((List.range n).map (fun i => (List.range n).map (fun j => g i j))) := by
  refine ⟨by simp, ?_⟩
  intro row hrow
  rw [List.mem_map] at hrow
  obtain ⟨i, _, rfl⟩ := hrow
  simp

theorem entry_withColumn [Zero K] (n : Nat) (A : Mat K) (b : List K) (i r c : Nat)
    (hA : SquareOfSize n A) (hb : b.length = n) (hr : r < n) (hc : c < n) :
    entry (withColumn A b i) r c = if c = i then b.getD r 0 else entry A r c := by
  have hAr := isSquare_getD n A hA r hr
  have hrow : (withColumn A b i).getD r [] = (A.getD r []).set i (b.getD r 0) := by
    rw [withColumn, zipWith_eq_map_range A b [] 0 _ (by rw [hb, hA.1]), hA.1,
      List.getD_eq_getElem?_getD, map_range_getElem? _ n r hr, Option.getD_some]
  unfold entry
  rw [hrow, List.getD_eq_getElem?_getD, List.getElem?_set]
  by_cases hci : c = i
  · subst hci
    rw [if_pos rfl, if_pos rfl, if_pos (by rw [hAr]; exact hc)]
    rfl
  · have : ¬ i = c := fun h => hci h.symm
    simp only [this, hci, if_false]
    rw [← List.getD_eq_getElem?_getD]

theorem isSquare_withColumn (n : Nat) (A : Mat K) (b : List K) (i : Nat)
    (hA : SquareOfSize n A) (hb : b.length = n) : SquareOfSize n (withColumn A b i) := by
  constructor
  · simp [withColumn, hA.1, hb]
  · intro row hrow
    unfold withColumn at hrow
    rw [List.mem_iff_getElem?] at hrow
    obtain ⟨k, hk⟩ := hrow
    rw [List.getElem?_zipWith] at hk
    cases hA' : A[k]? with
    | none => simp [hA'] at hk
    | some ra =>
      cases hb' : b[k]? with
      | none => simp [hA', hb'] at hk
      | some c =>
        simp only [hA', hb', Option.map_some', Option.bind_some, Option.some.injEq] at hk
        rw [← hk, List.length_set]
        exact hA.2 ra (List.getElem?_mem hA')

theorem toMatrix_withColumn [Zero K] (n : Nat) (A : Mat K) (b : List K) (i : Fin n)
    (hA : SquareOfSize n A) (hb : b.length = n) :
    toMatrix n (withColumn A b i) = (toMatrix n A).updateColumn i (toVector n b) := by
  ext r c
  simp only [toMatrix, Matrix.of_apply, Matrix.updateColumn_apply, toVector]
  rw [entry_withColumn n A b i r c hA hb r.2 c.2]
  by_cases h : c = i
  · simp [h]
  · have : ¬ (c : Nat) = i := fun h' => h (Fin.ext h')
    simp [h, this]

theorem toMatrix_transpose [Zero K] (n : Nat) (M : Mat K) :
    toMatrix n (transpose n M) = (toMatrix n M).transpose := by
  ext r c
  simp only [toMatrix, Matrix.of_apply, Matrix.transpose_apply, transpose]
  exact entry_map_range n (fun i j => entry M j i) r c r.2 c.2

theorem toMatrix_identity [Zero K] [One K] (n : Nat) :
    toMatrix n (identity n : Mat K) = 1 := by
  ext r c
  simp only [toMatrix, Matrix.of_apply, identity]
  rw [entry_map_range n (fun i j => if i = j then (1 : K) else 0) r c r.2 c.2,
    Matrix.one_apply]
  by_cases h : r = c
  · simp [h]
  · have : ¬ (r : Nat) = c := fun h' => h (Fin.ext h')
    simp [h, this]

theorem getD_swapRows (M : Mat K) (p q i : Nat) (hp : p < M.length) (hq : q < M.length) :
    (swapRows M p q).getD i [] =
      M.getD (if i = q then p else if i = p then q else i) [] := by
  unfold swapRows
  simp only [List.getD_eq_getElem?_getD, List.getElem?_set, List.length_set]
  by_cases hiq : i = q
  · subst hiq
    simp [hq]
  · have hqi : ¬ q = i := fun h => hiq h.symm
    simp only [hqi, hiq, if_false]
    by_cases hip : i = p
    · subst hip
      simp [hp]
    · have hpi : ¬ p = i := fun h => hip h.symm
      simp [hpi, hip]

theorem isSquare_swapRows (n : Nat) (M : Mat K) (p q : Nat) (hM : SquareOfSize n M)
    (hp : p < n) (hq : q < n) : SquareOfSize n (swapRows M p q) := by
  constructor
  · simp [swapRows, hM.1]
  · intro row hrow
    rw [List.mem_iff_getElem?] at hrow
    obtain ⟨k, hk⟩ := hrow
    have hklen : k < (swapRows M p q).length := by
      by_contra h
      rw [List.getElem?_eq_none (by omega)] at hk
      cases hk
    have hkn : k < n := by simpa [swapRows, hM.1] using hklen
    have h1 : (swapRows M p q).getD k [] = row := by
      rw [List.getD_eq_getElem?_getD, hk]; rfl
    rw [← h1, getD_swapRows M p q k (by rw [hM.1]; exact hp) (by rw [hM.1]; exact hq)]
    apply isSquare_getD n M hM
    split
    · exact hp
    · split
      · exact hq
      · exact hkn

theorem toMatrix_swapRows [Zero K] (n : Nat) (M : Mat K) (p q : Fin n) (hM : SquareOfSize n M) :
    toMatrix n (swapRows M p q) = (toMatrix n M).submatrix (Equiv.swap p q) id := by
  ext r c
  simp only [toMatrix, Matrix.of_apply, Matrix.submatrix_apply, id]
  unfold entry
  rw [getD_swapRows M p q r (by rw [hM.1]; exact p.2) (by rw [hM.1]; exact q.2)]
  congr 2
  by_cases hrq : r = q
  · subst hrq
    simp
  · have hrq' : ¬ (r : Nat) = q := fun h' => hrq (Fin.ext h')
    by_cases hrp : r = p
    · subst hrp
      simp [hrq']
    · have hrp' : ¬ (r : Nat) = p := fun h' => hrp (Fin.ext h')
      simp [hrq', hrp', Equiv.swap_apply_of_ne_of_ne hrp hrq]

end Kramer

namespace GoSem

theorem ok_bind {α β : Type} (a : α) (f : α → Except Fault β) :
    (Except.ok a >>= f) = f a := rfl

/-- A loop one of whose iterations fails from every state does not complete. -/
theorem foldlM_ne_ok {σ β : Type} (f : σ → β → Except Fault σ) (b : β)
    (hb : ∀ s s', f s b ≠ .ok s') :
    ∀ (l : List β), b ∈ l → ∀ s s', l.foldlM f s ≠ .ok s' := by
  intro l
  induction l with
  | nil => intro h; cases h
  | cons a l ih =>
    intro hmem s s' hfold
    rw [List.foldlM_cons] at hfold
    cases hfa : f s a with
    | error e =>
      rw [hfa] at hfold
      cases hfold
    | ok s1 =>
      rw [hfa, ok_bind] at hfold
      rcases List.mem_cons.mp hmem with h | h
      · subst h
        exact hb s s1 hfa
      · exact ih h s1 s' hfold

theorem bind_ne_ok_left {α β : Type} (x : Except Fault α) (f : α → Except Fault β)
    (hx : ∀ a, x ≠ .ok a) : ∀ y, (x >>= f) ≠ .ok y := by
  intro y h
  cases x with
  | error e => cases h
  | ok a => exact hx a rfl

theorem bind_ne_ok_right {α β : Type} (x : Except Fault α) (f : α → Except Fault β)
    (hf : ∀ a y, f a ≠ .ok y) : ∀ y, (x >>= f) ≠ .ok y := by
  intro y h
  cases x with
  | error e => cases h
  | ok a => exact hf a y h

end GoSem

namespace Kramer
variable {K : Type}
open Spec

theorem determinant_two [CommRing K] (a b c d : K) :
    determinant [[a, b], [c, d]] = .ok (a * d - b * c) := by
  rw [determinant]
  rfl

/-- On a correctly shaped augmented matrix with non-zero main determinant, `cramer`
returns the quotients of the column-substituted determinants by the main determinant. -/
theorem cramer_eq_of_det_ne_zero [Field K] [DecidableEq K] (m : Mat K) (d : K)
    (h : isAugmentedMatrixForCramer m = true)
    (hdet : determinant (coefficients m) = .ok d) (hd : d ≠ 0) :
    d = (toMatrix m.length (coefficients m)).det ∧
    (∀ i, i < m.length → determinant (withColumn (coefficients m) (constants m) i) =
      .ok (toMatrix m.length (withColumn (coefficients m) (constants m) i)).det) ∧
    cramer m = .ok ((List.range m.length).map (fun i =>
      (toMatrix m.length (withColumn (coefficients m) (constants m) i)).det / d)) := by
  have hn := ((isAugmented_iff m).mp h).1
  have hA := isSquare_coefficients m h
  have hb := length_constants (K := K) m
  have hd' : d = (toMatrix m.length (coefficients m)).det := by
    have := determinant_eq_det m.length (coefficients m) hn hA
    rw [hdet] at this
    exact Except.ok.inj this
  have hdets : ∀ i, i < m.length →
      determinant (withColumn (coefficients m) (constants m) i) =
        .ok (toMatrix m.length (withColumn (coefficients m) (constants m) i)).det :=
    fun i _ => determinant_eq_det m.length _ hn (isSquare_withColumn m.length _ _ i hA hb)
  exact ⟨hd', hdets, cramerWith_ok determinant m h d _ hdet hd hdets⟩

theorem determinant_three_example :
    determinant (coefficients ([[2, 1, 1, 3], [1, 3, 2, 5], [1, 1, 1, 1]] : Mat ℚ)) = .ok 1 := by
  rw [determinant_eq_det 3 _ (by decide) ⟨by simp [coefficients], by simp [coefficients]⟩,
    Matrix.det_fin_three]
  simp [toMatrix, entry, coefficients]
  norm_num

theorem det_three_example_ne_zero :
    (toMatrix ([[2, 1, 1, 3], [1, 3, 2, 5], [1, 1, 1, 1]] : Mat ℚ).length
      (coefficients ([[2, 1, 1, 3], [1, 3, 2, 5], [1, 1, 1, 1]] : Mat ℚ))).det ≠ 0 := by
  show (toMatrix 3 (coefficients ([[2, 1, 1, 3], [1, 3, 2, 5], [1, 1, 1, 1]] : Mat ℚ))).det ≠ 0
  rw [Matrix.det_fin_three]
  simp [toMatrix, entry, coefficients]
  norm_num

end Kramer

namespace CramerMT
variable {K : Type}
open Spec Kramer

theorem subMatrix_eq [Zero K] (matrix : Mat K) (n j : Nat) (hsq : SquareOfSize n matrix)
    (hn : 1 ≤ n) (hj : j < n) :
    subMatrix matrix n j = .ok ((matrix.eraseIdx 0).map (fun r => r.eraseIdx j)) := by
  have hlen := hsq.1
  unfold subMatrix
  rw [if_neg (by omega), List.range'_eq_map_range, List.foldlM_map]
  rw [foldlM_fill_all _ (fun i => (matrix.getD (1 + i) []).eraseIdx j) (n - 1) _ (by simp)]
  · congr 1
    rw [map_eq_map_range (matrix.eraseIdx 0) [] (fun r => r.eraseIdx j),
      List.length_eraseIdx, if_pos (by omega), hlen]
    apply List.map_congr_left
    intro i _
    show _ = ((matrix.eraseIdx 0).getD i []).eraseIdx j
    rw [List.getD_eq_getElem?_getD, List.getD_eq_getElem?_getD, getElem?_eraseIdx_eq,
      if_neg (by omega), Nat.add_comm]
  · intro acc i hi hacc _
    show (assign acc (1 + i - 1) (makeRow (n - 1)) >>= fun sub => _) = _
    have h1 : 1 + i - 1 = i := by omega
    rw [h1, assign_ok _ _ _ (by omega)]
    rw [ok_bind]
    have hinner : (List.range n).foldlM (fun (st : Mat K × Nat) k =>
        if k ≠ j then do
          let v ← index2 matrix (1 + i) k
          let sub ← assign2 st.1 i st.2 v
          pure (sub, st.2 + 1)
        else pure st) (acc.set i (makeRow (n - 1)), 0) =
        minorInner matrix n (1 + i) j i (acc.set i (makeRow (n - 1))) := by
      unfold minorInner
      congr 1
      funext st k
      by_cases hk : k = j
      · simp [hk]
      · simp [hk]
    rw [hinner, minorInner_eq matrix n (1 + i) j i _ (by omega)
      (isSquare_getD n matrix hsq (1 + i) (by omega)) hj (by simp; omega)
      (by rw [getD_set_self _ _ _ _ (by omega)]; simp [makeRow])]
    rw [ok_bind]
    show Except.ok _ = _
    rw [List.set_set]

theorem determinant_par_eq_det [CommRing K] :
    ∀ (n : Nat) (M : Mat K), 1 ≤ n → SquareOfSize n M →
      determinant M = .ok (toMatrix n M).det := by
  intro n
  induction n with
  | zero => intro M h; omega
  | succ n ih =>
    intro M _ hsq
    have hlen := hsq.1
    rw [determinant]
    simp only [hlen]
    by_cases h1 : n + 1 = 1
    · have hn : n = 0 := by omega
      subst hn
      simp only [if_true]
      rw [index2_entry 1 M hsq 0 0 (by omega) (by omega), Matrix.det_fin_one]
      rfl
    · rw [if_neg h1]
      by_cases h2 : n + 1 = 2
      · have hn : n = 1 := by omega
        subst hn
        simp only [if_true]
        rw [index2_entry 2 M hsq 0 0 (by omega) (by omega)]
        show (index2 M 1 1 >>= fun d => _) = _
        rw [index2_entry 2 M hsq 1 1 (by omega) (by omega)]
        show (index2 M 0 1 >>= fun b => _) = _
        rw [index2_entry 2 M hsq 0 1 (by omega) (by omega)]
        show (index2 M 1 0 >>= fun c => _) = _
        rw [index2_entry 2 M hsq 1 0 (by omega) (by omega), Matrix.det_fin_two]
        rfl
      · rw [if_neg h2]
        rw [foldlM_sum _ (fun j => (-1) ^ j * entry M 0 j *
          (toMatrix n ((M.eraseIdx 0).map (fun r => r.eraseIdx j))).det) (n + 1) ?_ (n + 1) le_rfl]
        · rw [Matrix.det_succ_row_zero, Finset.sum_range]
          congr 1
          apply Finset.sum_congr rfl
          intro j _
          rw [toMatrix_minor]
          rfl
        · intro acc j hj
          have hsub := subMatrix_eq M (n + 1) j hsq (by omega) hj
          split
          · rename_i e heq
            rw [hlen, hsub] at heq
            cases heq
          · rename_i mm heq
            rw [hlen, hsub] at heq
            cases heq
            show (index2 M 0 j >>= fun e => _) = _
            rw [index2_entry (n + 1) M hsq 0 j (by omega) hj]
            show (determinant _ >>= fun d => _) = _
            rw [ih _ (by omega) (isSquare_minor n M hsq 0 j (by omega) hj)]
            rfl


theorem copyRow_loop [Zero K] (M nm : Mat K) (n i : Nat) (hi : i < n) (hM : SquareOfSize n M)
    (hnm : i < nm.length) (hrow : (nm.getD i []).length = n) :
    ∀ k, k ≤ n → (List.range k).foldlM (fun (newMatrix : Mat K) j => do
        let v ← index2 M i j
        assign2 newMatrix i j v) nm =
      .ok (nm.set i ((M.getD i []).take k ++ (nm.getD i []).drop k)) := by
  have hMi := isSquare_getD n M hM i hi
  intro k
  induction k with
  | zero =>
    intro _
    show Except.ok nm = _
    rw [List.take_zero, List.drop_zero, List.nil_append, set_getD_self _ _ _ hnm]
  | succ k ih =>
    intro hk
    rw [foldlM_range_succ, ih (by omega), ok_bind]
    show (index2 M i k >>= fun v => _) = _
    rw [index2_ok M i k (by rw [hM.1]; exact hi) (by omega), ok_bind,
      assign2_ok _ _ _ _ (by simpa using hnm) (by
        rw [getD_set_self _ _ _ _ hnm, List.length_append, List.length_take, List.length_drop]
        omega)]
    rw [getD_set_self _ _ _ _ hnm, List.set_set,
      take_drop_set _ _ _ _ (getElem?_eq_some_getD _ _ 0 (by omega)) (by omega)]

theorem replaceColumn_eq [Zero K] (n : Nat) (M : Mat K) (v : List K) (c : Nat)
    (hM : SquareOfSize n M) (hv : v.length = n) (hc : c < n) :
    replaceColumn M v c = .ok (withColumn M v c) := by
  unfold replaceColumn
  simp only [hM.1]
  rw [foldlM_fill_all _ (fun i => M.getD i []) n _ (by simp), ok_bind]
  · have hid : (List.range n).map (fun i => M.getD i []) = M := by
      have := map_eq_map_range M [] id
      rw [List.map_id, hM.1] at this
      exact this.symm
    rw [hid, foldlM_fill_all _ (fun i => (M.getD i []).set c (v.getD i 0)) n M hM.1]
    · rw [withColumn, zipWith_eq_map_range M v [] 0 _ (by rw [hv, hM.1]), hM.1]
    · intro acc i hi hacc hsame
      have hrowi : acc.getD i [] = M.getD i [] := by
        rw [List.getD_eq_getElem?_getD, List.getD_eq_getElem?_getD, hsame]
      show (index v i >>= fun x => _) = _
      rw [index_ok v i 0 (by omega), ok_bind,
        assign2_ok _ _ _ _ (by omega) (by rw [hrowi, isSquare_getD n M hM i hi]; exact hc),
        hrowi]
  · intro acc i hi hacc _
    show (assign acc i (makeRow n) >>= fun nm => _) = _
    rw [assign_ok _ _ _ (by omega), ok_bind,
      copyRow_loop M _ n i hi hM (by simp; omega)
        (by rw [getD_set_self _ _ _ _ (by omega)]; simp [makeRow]) n le_rfl,
      List.set_set, List.take_of_length_le (by rw [isSquare_getD n M hM i hi]),
      List.drop_of_length_le (by rw [getD_set_self _ _ _ _ (by omega)]; simp [makeRow]),
      List.append_nil]

/-- The goroutines of `cramerParallel`, run in any order, fill the slots they own. -/
theorem sched_loop {α β : Type} (n : Nat) (val : Nat → α) (msg : Nat → β)
    (f : List α × List β → Nat → Except Fault (List α × List β))
    (hf : ∀ st idx, idx < n → st.1.length = n →
      f st idx = .ok (st.1.set idx (val idx), st.2 ++ [msg idx])) :
    ∀ sched : List Nat, (∀ i ∈ sched, i < n) → ∀ st : List α × List β, st.1.length = n →
      ∃ st', sched.foldlM f st = .ok st' ∧ st'.1.length = n ∧
        ∀ i, i < n → st'.1[i]? = if i ∈ sched then some (val i) else st.1[i]? := by
  intro sched
  induction sched with
  | nil =>
    intro _ st hst
    exact ⟨st, rfl, hst, fun i _ => by simp⟩
  | cons idx rest ih =>
    intro hmem st hst
    have hidx : idx < n := hmem idx (List.mem_cons_self _ _)
    obtain ⟨st', h1, h2, h3⟩ := ih (fun i hi => hmem i (List.mem_cons_of_mem _ hi))
      (st.1.set idx (val idx), st.2 ++ [msg idx]) (by simp [hst])
    refine ⟨st', ?_, h2, ?_⟩
    · rw [List.foldlM_cons, hf st idx hidx hst, ok_bind]
      exact h1
    · intro i hi
      rw [h3 i hi]
      by_cases hir : i ∈ rest
      · simp [hir]
      · by_cases hii : i = idx
        · subst hii
          simp [hst, hi]
        · have : ¬ idx = i := fun h => hii h.symm
          simp [hir, hii, List.getElem?_set, this]

theorem sched_loop_perm {α β : Type} (n : Nat) (val : Nat → α) (msg : Nat → β)
    (f : List α × List β → Nat → Except Fault (List α × List β))
    (hf : ∀ st idx, idx < n → st.1.length = n →
      f st idx = .ok (st.1.set idx (val idx), st.2 ++ [msg idx]))
    (sched : List Nat) (hs : sched.Perm (List.range n)) (st : List α × List β)
    (hst : st.1.length = n) :
    ∃ st', sched.foldlM f st = .ok st' ∧ st'.1 = (List.range n).map val := by
  have hmem : ∀ i, i ∈ sched ↔ i < n := fun i => by rw [hs.mem_iff, List.mem_range]
  obtain ⟨st', h1, h2, h3⟩ := sched_loop n val msg f hf sched (fun i hi => (hmem i).mp hi) st hst
  refine ⟨st', h1, ?_⟩
  apply List.ext_getElem?
  intro i
  by_cases hi : i < n
  · rw [h3 i hi, if_pos ((hmem i).mpr hi), map_range_getElem? _ _ _ hi]
  · rw [List.getElem?_eq_none (by omega), List.getElem?_eq_none (by simp; omega)]

theorem cramerParallel_zero [Field K] [DecidableEq K] (sched : List Nat) (A : Mat K)
    (b : List K) (hdet : determinant A = .ok 0) : cramerParallel sched A b = .ok none := by
  unfold cramerParallel
  rw [hdet]
  show (if (0 : K) = 0 then _ else _) = _
  rw [if_pos rfl]
  rfl

theorem cramerParallel_ok [Field K] [DecidableEq K] (n : Nat) (sched : List Nat) (A : Mat K)
    (b : List K) (d : K) (hn : 1 ≤ n) (hA : SquareOfSize n A) (hb : b.length = n)
    (hs : sched.Perm (List.range n)) (hdet : determinant A = .ok d) (hd : d ≠ 0) :
    cramerParallel sched A b = .ok (some ((List.range n).map (fun i =>
      (toMatrix n (withColumn A b i)).det / d))) := by
  unfold cramerParallel
  rw [hdet]
  simp only [hA.1]
  rw [ok_bind, if_neg hd]
  obtain ⟨st', h1, h2⟩ := sched_loop_perm n
    (fun i => (toMatrix n (withColumn A b i)).det / d)
    (fun i => (i, (toMatrix n (withColumn A b i)).det / d))
    (fun (st : List K × List (Nat × K)) index => do
      let modifiedMatrix ← replaceColumn A b index
      let detModified ← determinant modifiedMatrix
      let solutions ← assign st.1 index (detModified / d)
      pure (solutions, st.2 ++ [(index, detModified / d)]))
    (by
      intro st idx hidx hst
      show (replaceColumn A b idx >>= fun mm => _) = _
      rw [replaceColumn_eq n A b idx hA hb hidx, ok_bind,
        determinant_par_eq_det n _ hn (isSquare_withColumn n A b idx hA hb), ok_bind,
        assign_ok _ _ _ (by omega)]
      rfl)
    sched hs (makeRow n, []) (by simp [makeRow])
  rw [h1, ok_bind, h2]
  rfl

end CramerMT

namespace Kramer
variable {K : Type}
open Spec

theorem getD_augment (n : Nat) (A : Mat K) (b : List K) (c : K) (hA : A.length = n)
    (hb : b.length = n) (i : Nat) (hi : i < n) :
    (augment A b).getD i [] = A.getD i [] ++ [b.getD i c] := by
  rw [augment, zipWith_eq_map_range A b [] c _ (by rw [hb, hA]), hA,
    List.getD_eq_getElem?_getD, map_range_getElem? _ n i hi, Option.getD_some]

theorem length_augment (n : Nat) (A : Mat K) (b : List K) (hA : A.length = n)
    (hb : b.length = n) : (augment A b).length = n := by
  simp [augment, hA, hb]

theorem isAugmented_augment [Zero K] (n : Nat) (A : Mat K) (b : List K) (hn : 1 ≤ n)
    (hA : SquareOfSize n A) (hb : b.length = n) :
    isAugmentedMatrixForCramer (augment A b) = true := by
  have hlen := length_augment n A b hA.1 hb
  rw [isAugmented_iff, hlen]
  refine ⟨hn, ?_⟩
  intro row hrow
  rw [List.mem_iff_getElem?] at hrow
  obtain ⟨k, hk⟩ := hrow
  have hkn : k < n := by
    by_contra h
    rw [List.getElem?_eq_none (by omega)] at hk
    cases hk
  have h1 : (augment A b).getD k [] = row := by
    rw [List.getD_eq_getElem?_getD, hk]; rfl
  rw [← h1, getD_augment n A b 0 hA.1 hb k hkn, List.length_append,
    isSquare_getD n A hA k hkn]
  rfl

theorem coefficients_augment [Zero K] (n : Nat) (A : Mat K) (b : List K)
    (hA : SquareOfSize n A) (hb : b.length = n) : coefficients (augment A b) = A := by
  have hlen := length_augment n A b hA.1 hb
  rw [coefficients, map_eq_map_range _ [] (fun row => List.take (augment A b).length row),
    hlen]
  have hid := map_eq_map_range A [] id
  rw [List.map_id, hA.1] at hid
  refine (List.map_congr_left ?_).trans hid.symm
  intro i hi
  rw [List.mem_range] at hi
  rw [getD_augment n A b 0 hA.1 hb i hi,
    List.take_append_of_le_length (by rw [isSquare_getD n A hA i hi]),
    List.take_of_length_le (by rw [isSquare_getD n A hA i hi])]
  rfl

theorem constants_augment [Zero K] (n : Nat) (A : Mat K) (b : List K)
    (hA : SquareOfSize n A) (hb : b.length = n) : constants (augment A b) = b := by
  have hlen := length_augment n A b hA.1 hb
  rw [constants, map_eq_map_range _ [] (fun row => List.getD row (augment A b).length 0),
    hlen]
  have hid := map_eq_map_range b 0 id
  rw [List.map_id, hb] at hid
  refine (List.map_congr_left ?_).trans hid.symm
  intro i hi
  rw [List.mem_range] at hi
  rw [getD_augment n A b 0 hA.1 hb i hi, List.getD_eq_getElem?_getD,
    List.getElem?_append_right (by rw [isSquare_getD n A hA i hi]),
    isSquare_getD n A hA i hi, Nat.sub_self]
  rfl

end Kramer

namespace CramerMT
variable {K : Type}
open Spec

theorem replaceColumn_short [Zero K] (A : Mat K) (b : List K) (c : Nat)
    (hshort : (∃ i, i < A.length ∧ (A.getD i []).length < A.length) ∨ b.length < A.length) :
    ∀ R, replaceColumn A b c ≠ .ok R := by
  unfold replaceColumn
  rcases hshort with ⟨i, hi, hrow⟩ | hb
  · apply bind_ne_ok_left
    intro R
    apply foldlM_ne_ok _ i _ _ (List.mem_range.mpr hi)
    intro s s'
    apply bind_ne_ok_right
    intro nm
    apply foldlM_ne_ok _ (A.getD i []).length _ _ (List.mem_range.mpr hrow)
    intro t
    apply bind_ne_ok_left
    intro v hv
    unfold index2 at hv
    rw [index_ok A i [] hi, ok_bind, index_panic _ _ le_rfl] at hv
    cases hv
  · apply bind_ne_ok_right
    intro nm
    apply foldlM_ne_ok _ b.length _ _ (List.mem_range.mpr hb)
    intro s
    apply bind_ne_ok_left
    intro v hv
    rw [index_panic _ _ le_rfl] at hv
    cases hv

theorem determinant_two_rows [CommRing K] (a b c d : K) (r0 r1 : List K) :
    determinant [a :: b :: r0, c :: d :: r1] = .ok (a * d - b * c) := by
  rw [determinant]
  simp [index2, index, bind, Except.bind, pure, Except.pure]

theorem cramerParallel_unfold [Field K] [DecidableEq K] (sched : List Nat) (A : Mat K)
    (b : List K) :
    cramerParallel sched A b = (determinant A >>= fun detMain =>
      if detMain = 0 then .ok none
      else sched.foldlM (fun (st : List K × List (Nat × K)) index => do
        let modifiedMatrix ← replaceColumn A b index
        let detModified ← determinant modifiedMatrix
        let solutions ← assign st.1 index (detModified / detMain)
        pure (solutions, st.2 ++ [(index, detModified / detMain)])) (makeRow A.length, []) >>=
          fun st => .ok (some st.1)) := by
  unfold cramerParallel
  rfl

end CramerMT

/-! ## Failures and reads of the concurrent solver -/

namespace GoSem
variable {K : Type}

/-! Every failure of the primitives is a run-time panic. -/

theorem index_error {α : Type} (s : List α) (i : Nat) (e : Fault)
    (h : index s i = .error e) : e = .panic := by
  unfold index at h
  split at h
  · cases h
  · cases h; rfl

theorem assign_error {α : Type} (s : List α) (i : Nat) (v : α) (e : Fault)
    (h : assign s i v = .error e) : e = .panic := by
  unfold assign at h
  split at h
  · cases h
  · cases h; rfl

theorem bind_error {α β : Type} (x : Except Fault α) (f : α → Except Fault β)
    (hx : ∀ e, x = .error e → e = .panic) (hf : ∀ a e, f a = .error e → e = .panic) :
    ∀ e, (x >>= f) = .error e → e = .panic := by
  intro e h
  cases x with
  | error e' =>
    have : e' = e := by cases h; rfl
    exact this ▸ hx e' rfl
  | ok a => exact hf a e h

theorem foldlM_error {σ β : Type} (f : σ → β → Except Fault σ)
    (hf : ∀ s b e, f s b = .error e → e = .panic) :
    ∀ (l : List β) (s : σ) (e : Fault), l.foldlM f s = .error e → e = .panic := by
  intro l
  induction l with
  | nil => intro s e h; cases h
  | cons b l ih =>
    intro s e h
    rw [List.foldlM_cons] at h
    exact bind_error (f s b) _ (hf s b) (fun a => ih a) e h

theorem index2_error (m : Mat K) (i j : Nat) (e : Fault) (h : index2 m i j = .error e) :
    e = .panic :=
  bind_error (index m i) _ (index_error m i) (fun r => index_error r j) e h

theorem assign2_error (m : Mat K) (i j : Nat) (v : K) (e : Fault)
    (h : assign2 m i j v = .error e) : e = .panic :=
  bind_error (index m i) _ (index_error m i)
    (fun r => bind_error (assign r j v) _ (assign_error r j v) (fun r' => assign_error m i r'))
    e h

/-- Two loops whose bodies agree on every element of the list agree. -/
theorem foldlM_congr_mem {σ β : Type} (f g : σ → β → Except Fault σ) :
    ∀ (l : List β), (∀ s, ∀ b ∈ l, f s b = g s b) → ∀ s, l.foldlM f s = l.foldlM g s := by
  intro l
  induction l with
  | nil => intro _ s; rfl
  | cons a l ih =>
    intro h s
    rw [List.foldlM_cons, List.foldlM_cons, h s a (List.mem_cons_self _ _)]
    congr 1
    funext t
    exact ih (fun s b hb => h s b (List.mem_cons_of_mem _ hb)) t

theorem index_take {α : Type} (l : List α) (n i : Nat) (hi : i < n) :
    index (l.take n) i = index l i := by
  unfold index
  rw [List.getElem?_take_of_lt hi]

theorem index2_map_take (m : Mat K) (n i j : Nat) (hj : j < n) :
    index2 (m.map (fun row => row.take n)) i j = index2 m i j := by
  unfold index2 index
  rw [List.getElem?_map]
  cases m[i]? with
  | none => rfl
  | some r =>
    show index (r.take n) j = index r j
    exact index_take r n j hj

end GoSem

namespace CramerMT
variable {K : Type}
open Spec

/-- On an input with a row or a vector shorter than the row count, no order of the
goroutines yields a solution vector. -/
theorem cramerParallel_short_no_solution [Field K] [DecidableEq K] (sched : List Nat) (A : Mat K)
    (b : List K) (hs : sched.Perm (List.range A.length))
    (hshort : (∃ i, i < A.length ∧ (A.getD i []).length < A.length) ∨ b.length < A.length) :
    ∀ x, cramerParallel sched A b ≠ .ok (some x) := by
  have hpos : 0 < A.length := by
    rcases hshort with ⟨i, hi, _⟩ | hb <;> omega
  have h0 : 0 ∈ sched := hs.mem_iff.mpr (List.mem_range.mpr hpos)
  intro x hx
  rw [cramerParallel_unfold] at hx
  cases hdet : determinant A with
  | error e =>
    rw [hdet] at hx
    cases hx
  | ok d =>
    rw [hdet, ok_bind] at hx
    by_cases hd : d = 0
    · rw [if_pos hd] at hx
      cases hx
    · rw [if_neg hd] at hx
      revert hx
      apply bind_ne_ok_left
      apply foldlM_ne_ok _ 0 _ _ h0
      intro s
      apply bind_ne_ok_left
      exact replaceColumn_short A b 0 hshort

end CramerMT

namespace CramerMT
variable {K : Type}
open Spec

theorem subMatrix_error [Zero K] (matrix : Mat K) (n j : Nat) (e : Fault)
    (h : subMatrix matrix n j = .error e) : e = .panic := by
  unfold subMatrix at h
  split at h
  · cases h; rfl
  · refine foldlM_error _ ?_ _ _ e h
    intro s i e' h'
    refine bind_error (assign s (i - 1) (makeRow (n - 1))) _ (assign_error _ _ _) ?_ e' h'
    intro s1 e1 h1
    refine bind_error _ _ (foldlM_error _ ?_ _ _) (fun _ _ hp => by cases hp) e1 h1
    intro st k e2 h2
    by_cases hk : k = j
    · simp only [hk, ne_eq, not_true_eq_false, if_false] at h2
      cases h2
    · simp only [ne_eq, hk, not_false_eq_true, if_true] at h2
      refine bind_error _ _ (index2_error matrix i k) ?_ e2 h2
      intro v e3 h3
      exact bind_error _ _ (assign2_error _ _ _ _) (fun _ _ hp => by cases hp) e3 h3

theorem replaceColumn_error [Zero K] (matrix : Mat K) (column : List K) (c : Nat) (e : Fault)
    (h : replaceColumn matrix column c = .error e) : e = .panic := by
  unfold replaceColumn at h
  refine bind_error _ _ (foldlM_error _ ?_ _ _) ?_ e h
  · intro s i e1 h1
    refine bind_error _ _ (assign_error _ _ _) ?_ e1 h1
    intro nm e2 h2
    refine foldlM_error _ ?_ _ _ e2 h2
    intro t j e3 h3
    exact bind_error _ _ (index2_error matrix i j) (fun v => assign2_error _ _ _ v) e3 h3
  · intro nm e1 h1
    refine foldlM_error _ ?_ _ _ e1 h1
    intro t i e2 h2
    exact bind_error _ _ (index_error column i) (fun v => assign2_error _ _ _ v) e2 h2

theorem determinant_par_error [CommRing K] :
    ∀ (n : Nat) (M : Mat K), M.length ≤ n → ∀ e, determinant M = .error e → e = .panic := by
  intro n
  induction n with
  | zero =>
    intro M hM e h
    have hnil : M = [] := List.length_eq_zero.mp (by omega)
    subst hnil
    rw [determinant] at h
    cases h
  | succ n ih =>
    intro M hM e h
    rw [determinant] at h
    split at h
    · exact index2_error M 0 0 e h
    · split at h
      · refine bind_error _ _ (index2_error M 0 0) ?_ e h
        intro a e1 h1
        refine bind_error _ _ (index2_error M 1 1) ?_ e1 h1
        intro d e2 h2
        refine bind_error _ _ (index2_error M 0 1) ?_ e2 h2
        intro b e3 h3
        exact bind_error _ _ (index2_error M 1 0) (fun _ _ hp => by cases hp) e3 h3
      · refine foldlM_error _ ?_ _ _ e h
        intro acc j e1 h1
        split at h1
        · rename_i e2 heq
          cases h1
          exact subMatrix_error M M.length j _ heq
        · rename_i sub heq
          have hlen := subMatrix_length M M.length j sub heq
          refine bind_error _ _ (index2_error M 0 j) ?_ e1 h1
          intro x e2 h2
          refine bind_error _ _ (ih sub (by omega)) (fun _ _ hp => by cases hp) e2 h2

theorem cramerParallel_error [Field K] [DecidableEq K] (sched : List Nat) (A : Mat K)
    (b : List K) (e : Fault) (h : cramerParallel sched A b = .error e) : e = .panic := by
  rw [cramerParallel_unfold] at h
  refine bind_error _ _ (determinant_par_error A.length A le_rfl) ?_ e h
  intro d e1 h1
  split at h1
  · cases h1
  · refine bind_error _ _ (foldlM_error _ ?_ _ _) (fun _ _ hp => by cases hp) e1 h1
    intro st idx e2 h2
    refine bind_error _ _ (replaceColumn_error A b idx) ?_ e2 h2
    intro mm e3 h3
    refine bind_error _ _ (determinant_par_error mm.length mm le_rfl) ?_ e3 h3
    intro dm e4 h4
    exact bind_error _ _ (assign_error _ _ _) (fun _ _ hp => by cases hp) e4 h4

end CramerMT

namespace CramerMT
variable {K : Type}
open Spec

/-! The concurrent solver reads only the first `n` entries of each row and of the vector. -/

theorem subMatrix_map_take [Zero K] (A : Mat K) (n j : Nat) :
    subMatrix (A.map (fun row => row.take n)) n j = subMatrix A n j := by
  unfold subMatrix
  by_cases hn : n = 0
  · rw [if_pos hn, if_pos hn]
  · rw [if_neg hn, if_neg hn]
    apply foldlM_congr_mem
    intro s i _
    congr 1
    funext s1
    congr 1
    apply foldlM_congr_mem
    intro st k hk
    rw [index2_map_take A n i k (List.mem_range.mp hk)]

theorem determinant_map_take [CommRing K] (A : Mat K) :
    determinant (A.map (fun row => row.take A.length)) = determinant A := by
  rw [determinant]
  conv_rhs => rw [determinant]
  simp only [List.length_map]
  by_cases h1 : A.length = 1
  · rw [if_pos h1, if_pos h1, index2_map_take A _ 0 0 (by omega)]
  · rw [if_neg h1, if_neg h1]
    by_cases h2 : A.length = 2
    · rw [if_pos h2, if_pos h2, index2_map_take A _ 0 0 (by omega),
        index2_map_take A _ 1 1 (by omega), index2_map_take A _ 0 1 (by omega),
        index2_map_take A _ 1 0 (by omega)]
    · rw [if_neg h2, if_neg h2]
      apply foldlM_congr_mem
      intro acc j hj
      have hsub := subMatrix_map_take A A.length j
      split
      · rename_i e heq
        rw [List.length_map, hsub] at heq
        split
        · rename_i e' heq'
          rw [heq] at heq'
          cases heq'
          rfl
        · rename_i sub heq'
          rw [heq] at heq'
          cases heq'
      · rename_i sub heq
        rw [List.length_map, hsub] at heq
        split
        · rename_i e' heq'
          rw [heq] at heq'
          cases heq'
        · rename_i sub' heq'
          rw [heq] at heq'
          cases heq'
          rw [index2_map_take A _ 0 j (List.mem_range.mp hj)]

theorem replaceColumn_map_take [Zero K] (A : Mat K) (b : List K) (c : Nat) :
    replaceColumn (A.map (fun row => row.take A.length)) (b.take A.length) c =
      replaceColumn A b c := by
  unfold replaceColumn
  simp only [List.length_map]
  have hfirst : (List.range A.length).foldlM (fun (newMatrix : Mat K) i => do
        let newMatrix ← assign newMatrix i (makeRow A.length)
        (List.range A.length).foldlM (fun (newMatrix : Mat K) j => do
          let v ← index2 (A.map (fun row => row.take A.length)) i j
          assign2 newMatrix i j v) newMatrix) (List.replicate A.length []) =
      (List.range A.length).foldlM (fun (newMatrix : Mat K) i => do
        let newMatrix ← assign newMatrix i (makeRow A.length)
        (List.range A.length).foldlM (fun (newMatrix : Mat K) j => do
          let v ← index2 A i j
          assign2 newMatrix i j v) newMatrix) (List.replicate A.length []) := by
    apply foldlM_congr_mem
    intro s i _
    congr 1
    funext s1
    apply foldlM_congr_mem
    intro t j hj
    rw [index2_map_take A _ i j (List.mem_range.mp hj)]
  rw [hfirst]
  congr 1
  funext nm
  apply foldlM_congr_mem
  intro t i hi
  rw [index_take b _ i (List.mem_range.mp hi)]

theorem cramerParallel_map_take [Field K] [DecidableEq K] (sched : List Nat) (A : Mat K)
    (b : List K) :
    cramerParallel sched (A.map (fun row => row.take A.length)) (b.take A.length) =
      cramerParallel sched A b := by
  rw [cramerParallel_unfold, cramerParallel_unfold, determinant_map_take]
  simp only [List.length_map, replaceColumn_map_take]

theorem isSquare_map_take (A : Mat K) (h : ∀ row ∈ A, A.length ≤ row.length) :
    SquareOfSize A.length (A.map (fun row => row.take A.length)) := by
  refine ⟨by simp, ?_⟩
  intro row hrow
  rw [List.mem_map] at hrow
  obtain ⟨r, hr, rfl⟩ := hrow
  rw [List.length_take]
  exact Nat.min_eq_left (h r hr)

end CramerMT

/-! ## The claims -/

namespace Kramer
variable {K : Type}
open Spec

/-- C1: for every augmented matrix with `n ≥ 1` rows and `n + 1` columns whose coefficient
block `A` has a non-zero determinant (the determinant of `A` as a matrix over the field,
not the value computed by the code), `cramer` succeeds and the returned vector `x`
satisfies `A · x = b`: for every row `r`, the sum over `j` of `A[r][j] * x[j]` equals
`b[r]`, exactly. -/
theorem cramer_solves_system [Field K] [DecidableEq K] (m : Mat K)
    (hn : 1 ≤ m.length) (hrows : ∀ row ∈ m, row.length = m.length + 1)
    (hdet : (toMatrix m.length (coefficients m)).det ≠ 0) :
    ∃ x, cramer m = .ok x ∧ x.length = m.length ∧
      ∀ r, r < m.length →
        ∑ j in Finset.range m.length, entry (coefficients m) r j * x.getD j 0 =
          (constants m).getD r 0 := by
  have h : isAugmentedMatrixForCramer m = true := (isAugmented_iff m).mpr ⟨hn, hrows⟩
  have hA := isSquare_coefficients m h
  have hb := length_constants (K := K) m
  have hcode := determinant_eq_det m.length (coefficients m) hn hA
  obtain ⟨_, _, hx⟩ := cramer_eq_of_det_ne_zero m _ h hcode hdet
  refine ⟨_, hx, by simp, ?_⟩
  intro r hr
  have key := congrFun (Matrix.mulVec_cramer (toMatrix m.length (coefficients m))
    (toVector m.length (constants m))) ⟨r, hr⟩
  simp only [Matrix.mulVec, Matrix.dotProduct, Matrix.cramer_apply, Pi.smul_apply,
    smul_eq_mul] at key
  rw [Finset.sum_range (fun j => entry (coefficients m) r j *
    ((List.range m.length).map (fun i =>
      (toMatrix m.length (withColumn (coefficients m) (constants m) i)).det /
        (toMatrix m.length (coefficients m)).det)).getD j 0)]
  have hterm : ∀ j : Fin m.length,
      entry (coefficients m) r j * ((List.range m.length).map (fun i =>
        (toMatrix m.length (withColumn (coefficients m) (constants m) i)).det /
          (toMatrix m.length (coefficients m)).det)).getD j 0 =
      (toMatrix m.length (coefficients m) ⟨r, hr⟩ j *
        ((toMatrix m.length (coefficients m)).updateColumn j
          (toVector m.length (constants m))).det) /
        (toMatrix m.length (coefficients m)).det := by
    intro j
    rw [List.getD_eq_getElem?_getD, map_range_getElem? _ _ _ j.2, Option.getD_some,
      toMatrix_withColumn m.length _ _ j hA hb, mul_div_assoc]
    rfl
  rw [Finset.sum_congr rfl (fun j _ => hterm j), ← Finset.sum_div, key]
  rw [mul_div_cancel_left₀ _ hdet]
  rfl

/-- Witness for C1: a system of three equations in three unknowns, whose coefficient
matrix has determinant `1`, so that `cramer` goes through `minor` and the recursion. -/
theorem cramer_solves_system_witness :
    1 ≤ ([[2, 1, 1, 3], [1, 3, 2, 5], [1, 1, 1, 1]] : Mat ℚ).length ∧
    (∀ row ∈ ([[2, 1, 1, 3], [1, 3, 2, 5], [1, 1, 1, 1]] : Mat ℚ),
      row.length = ([[2, 1, 1, 3], [1, 3, 2, 5], [1, 1, 1, 1]] : Mat ℚ).length + 1) ∧
    (toMatrix ([[2, 1, 1, 3], [1, 3, 2, 5], [1, 1, 1, 1]] : Mat ℚ).length
      (coefficients ([[2, 1, 1, 3], [1, 3, 2, 5], [1, 1, 1, 1]] : Mat ℚ))).det ≠ 0 ∧
    ∃ x, cramer ([[2, 1, 1, 3], [1, 3, 2, 5], [1, 1, 1, 1]] : Mat ℚ) = .ok x ∧
      x.length = ([[2, 1, 1, 3], [1, 3, 2, 5], [1, 1, 1, 1]] : Mat ℚ).length ∧
      ∀ r, r < ([[2, 1, 1, 3], [1, 3, 2, 5], [1, 1, 1, 1]] : Mat ℚ).length →
        ∑ j in Finset.range ([[2, 1, 1, 3], [1, 3, 2, 5], [1, 1, 1, 1]] : Mat ℚ).length,
          entry (coefficients ([[2, 1, 1, 3], [1, 3, 2, 5], [1, 1, 1, 1]] : Mat ℚ)) r j *
            x.getD j 0 =
          (constants ([[2, 1, 1, 3], [1, 3, 2, 5], [1, 1, 1, 1]] : Mat ℚ)).getD r 0 :=
  ⟨by decide, by simp, det_three_example_ne_zero,
    cramer_solves_system [[2, 1, 1, 3], [1, 3, 2, 5], [1, 1, 1, 1]] (by decide) (by simp)
      det_three_example_ne_zero⟩

end Kramer

namespace CramerMT
variable {K : Type}
open Spec Kramer

/-- C2: for every square `n × n` coefficient matrix `A` (`n ≥ 1`) and every vector `b` of
length `n`, the concurrent solver `cramerParallel A b` (under every order `sched` in which
its `n` goroutines may run) and the sequential solver `cramer` on the augmented matrix
`[A | b]` give the same outcome: both report no solution, or both return the same
solution vector. -/
theorem cramerParallel_agrees_with_cramer [Field K] [DecidableEq K] (n : Nat) (A : Mat K)
    (b : List K) (sched : List Nat) (hn : 1 ≤ n) (hA : SquareOfSize n A) (hb : b.length = n)
    (hs : sched.Perm (List.range n)) :
    (Kramer.cramer (augment A b) = .error .zeroDet ∧ cramerParallel sched A b = .ok none) ∨
    (∃ x, Kramer.cramer (augment A b) = .ok x ∧ cramerParallel sched A b = .ok (some x)) := by
  have haug := Kramer.isAugmented_augment n A b hn hA hb
  have hco := Kramer.coefficients_augment n A b hA hb
  have hcs := Kramer.constants_augment n A b hA hb
  have hlen := Kramer.length_augment n A b hA.1 hb
  have hseq := Kramer.determinant_eq_det n A hn hA
  have hpar := determinant_par_eq_det n A hn hA
  by_cases hd : (toMatrix n A).det = 0
  · left
    rw [hd] at hseq hpar
    exact ⟨Kramer.cramerWith_zeroDet Kramer.determinant _ haug (by rw [hco]; exact hseq),
      cramerParallel_zero sched A b hpar⟩
  · right
    obtain ⟨_, _, hx⟩ := Kramer.cramer_eq_of_det_ne_zero (augment A b) _ haug
      (by rw [hco]; exact hseq) hd
    rw [hco, hcs, hlen] at hx
    exact ⟨_, hx, cramerParallel_ok n sched A b _ hn hA hb hs hpar hd⟩

/-- Witness for C2: the system `2x + y = 3`, `x + 3y = 5`, second goroutine first. -/
theorem cramerParallel_agrees_with_cramer_witness :
    1 ≤ 2 ∧ SquareOfSize 2 ([[2, 1], [1, 3]] : Mat ℚ) ∧ ([3, 5] : List ℚ).length = 2 ∧
    ([1, 0] : List Nat).Perm (List.range 2) ∧
    ((Kramer.cramer (augment ([[2, 1], [1, 3]] : Mat ℚ) [3, 5]) = .error .zeroDet ∧
        cramerParallel [1, 0] ([[2, 1], [1, 3]] : Mat ℚ) [3, 5] = .ok none) ∨
      (∃ x, Kramer.cramer (augment ([[2, 1], [1, 3]] : Mat ℚ) [3, 5]) = .ok x ∧
        cramerParallel [1, 0] ([[2, 1], [1, 3]] : Mat ℚ) [3, 5] = .ok (some x))) :=
  ⟨by decide, ⟨rfl, by simp⟩, rfl, by decide,
    cramerParallel_agrees_with_cramer 2 [[2, 1], [1, 3]] [3, 5] [1, 0] (by decide)
      ⟨rfl, by simp⟩ rfl (by decide)⟩

end CramerMT

namespace Kramer
variable {K : Type}
open Spec

/-- C3: for every augmented matrix with `n` rows and `n + 1` columns whose coefficient block
`A` has determinant `detA ≠ 0`, `cramer` returns without error a vector of length exactly
`n` whose entry `i`, for every `i < n`, is `determinant (A with column i replaced by the
constants column) / detA`. -/
theorem cramer_entries [Field K] [DecidableEq K] (m : Mat K) (detA : K)
    (hn : 1 ≤ m.length) (hrows : ∀ row ∈ m, row.length = m.length + 1)
    (hdet : determinant (coefficients m) = .ok detA) (hd : detA ≠ 0) :
    ∃ x, cramer m = .ok x ∧ x.length = m.length ∧
      ∀ i, i < m.length →
        ∃ detAi, determinant (withColumn (coefficients m) (constants m) i) = .ok detAi ∧
          x[i]? = some (detAi / detA) := by
  have h : isAugmentedMatrixForCramer m = true := (isAugmented_iff m).mpr ⟨hn, hrows⟩
  obtain ⟨_, hdets, hx⟩ := cramer_eq_of_det_ne_zero m detA h hdet hd
  refine ⟨_, hx, by simp, ?_⟩
  intro i hi
  exact ⟨_, hdets i hi, map_range_getElem? _ _ _ hi⟩

/-- Witness for C3: a system of three equations with main determinant `1`. -/
theorem cramer_entries_witness :
    1 ≤ ([[2, 1, 1, 3], [1, 3, 2, 5], [1, 1, 1, 1]] : Mat ℚ).length ∧
    (∀ row ∈ ([[2, 1, 1, 3], [1, 3, 2, 5], [1, 1, 1, 1]] : Mat ℚ),
      row.length = ([[2, 1, 1, 3], [1, 3, 2, 5], [1, 1, 1, 1]] : Mat ℚ).length + 1) ∧
    determinant (coefficients ([[2, 1, 1, 3], [1, 3, 2, 5], [1, 1, 1, 1]] : Mat ℚ)) = .ok 1 ∧
    (1 : ℚ) ≠ 0 ∧
    ∃ x, cramer ([[2, 1, 1, 3], [1, 3, 2, 5], [1, 1, 1, 1]] : Mat ℚ) = .ok x ∧
      x.length = ([[2, 1, 1, 3], [1, 3, 2, 5], [1, 1, 1, 1]] : Mat ℚ).length ∧
      ∀ i, i < ([[2, 1, 1, 3], [1, 3, 2, 5], [1, 1, 1, 1]] : Mat ℚ).length →
        ∃ detAi, determinant (withColumn
            (coefficients ([[2, 1, 1, 3], [1, 3, 2, 5], [1, 1, 1, 1]] : Mat ℚ))
            (constants ([[2, 1, 1, 3], [1, 3, 2, 5], [1, 1, 1, 1]] : Mat ℚ)) i) = .ok detAi ∧
          x[i]? = some (detAi / 1) :=
  ⟨by decide, by simp, determinant_three_example, by norm_num,
    cramer_entries [[2, 1, 1, 3], [1, 3, 2, 5], [1, 1, 1, 1]] 1 (by decide) (by simp)
      determinant_three_example (by norm_num)⟩

/-- C4: for every correctly shaped augmented matrix (`n` rows, `n + 1` columns) whose
coefficient block has determinant exactly zero, `cramer` returns the "no unique solution"
error and no solution vector; the witness is the system `[[1,2],[2,4]]`, `[3,6]`. -/
theorem cramer_singular [Field K] [DecidableEq K] (m : Mat K)
    (hn : 1 ≤ m.length) (hrows : ∀ row ∈ m, row.length = m.length + 1)
    (hdet : determinant (coefficients m) = .ok 0) :
    cramer m = .error .zeroDet ∧ ∀ x, cramer m ≠ .ok x := by
  have h : isAugmentedMatrixForCramer m = true := (isAugmented_iff m).mpr ⟨hn, hrows⟩
  have hc : cramer m = .error .zeroDet := cramerWith_zeroDet determinant m h hdet
  refine ⟨hc, ?_⟩
  intro x hx
  rw [hc] at hx
  cases hx

/-- Witness for C4: coefficients `[[1,2],[2,4]]`, constants `[3,6]`. -/
theorem cramer_singular_witness :
    1 ≤ ([[1, 2, 3], [2, 4, 6]] : Mat ℚ).length ∧
    (∀ row ∈ ([[1, 2, 3], [2, 4, 6]] : Mat ℚ),
      row.length = ([[1, 2, 3], [2, 4, 6]] : Mat ℚ).length + 1) ∧
    determinant (coefficients ([[1, 2, 3], [2, 4, 6]] : Mat ℚ)) = .ok 0 ∧
    (cramer ([[1, 2, 3], [2, 4, 6]] : Mat ℚ) = .error .zeroDet ∧
      ∀ x, cramer ([[1, 2, 3], [2, 4, 6]] : Mat ℚ) ≠ .ok x) :=
  ⟨by decide, by simp, by simp [coefficients, determinant_two]; norm_num,
    cramer_singular [[1, 2, 3], [2, 4, 6]] (by decide) (by simp)
      (by simp [coefficients, determinant_two]; norm_num)⟩

/-- C5: on every matrix for which `isAugmentedMatrixForCramer` is false (empty, ragged, or
column count other than row count + 1), `cramer` returns the format error and no solution
vector, and it does so whatever the determinant routine would do, i.e. without calling it;
the witness is a matrix with 3 rows and 5 columns. -/
theorem cramer_rejects_bad_shape [Field K] [DecidableEq K] (m : Mat K)
    (h : isAugmentedMatrixForCramer m = false) :
    cramer m = .error .badFormat ∧ (∀ x, cramer m ≠ .ok x) ∧
      ∀ det : Mat K → Except Fault K, cramerWith det m = .error .badFormat := by
  have hc : cramer m = .error .badFormat := cramerWith_badFormat determinant m h
  refine ⟨hc, ?_, fun det => cramerWith_badFormat det m h⟩
  intro x hx
  rw [hc] at hx
  cases hx

/-- Witness for C5: a matrix with 3 rows and 5 columns. -/
theorem cramer_rejects_bad_shape_witness :
    isAugmentedMatrixForCramer
      ([[1, 0, 0, 7, 1], [0, 1, 0, 8, 1], [0, 0, 1, 9, 1]] : Mat ℚ) = false ∧
    (cramer ([[1, 0, 0, 7, 1], [0, 1, 0, 8, 1], [0, 0, 1, 9, 1]] : Mat ℚ) = .error .badFormat ∧
      (∀ x, cramer ([[1, 0, 0, 7, 1], [0, 1, 0, 8, 1], [0, 0, 1, 9, 1]] : Mat ℚ) ≠ .ok x) ∧
      ∀ det : Mat ℚ → Except Fault ℚ,
        cramerWith det ([[1, 0, 0, 7, 1], [0, 1, 0, 8, 1], [0, 0, 1, 9, 1]] : Mat ℚ) =
          .error .badFormat) :=
  ⟨by rfl, cramer_rejects_bad_shape _ (by rfl)⟩

end Kramer

namespace CramerMT
variable {K : Type}
open Spec Kramer

/-- C6 (as stated, refuted): `cramerParallel` returns a solution vector on a non-square
`2 × 3` coefficient matrix, and on a `2 × 2` matrix with a vector of length 3; on a
`2 × 2` matrix with a vector of length 1 it does not return `nil` either: it panics. -/
theorem cramerParallel_accepts_bad_shape :
    Kramer.isSquareMatrix ([[1, 2, 3], [4, 5, 6]] : Mat ℚ) = false ∧
    cramerParallel [0, 1] ([[1, 2, 3], [4, 5, 6]] : Mat ℚ) [1, 1] = .ok (some [-1, 1]) ∧
    ([3, 5, 7] : List ℚ).length ≠ ([[2, 1], [1, 3]] : Mat ℚ).length ∧
    cramerParallel [0, 1] ([[2, 1], [1, 3]] : Mat ℚ) [3, 5, 7] = .ok (some [4 / 5, 7 / 5]) ∧
    ([3] : List ℚ).length ≠ ([[2, 1], [1, 3]] : Mat ℚ).length ∧
    cramerParallel [0, 1] ([[2, 1], [1, 3]] : Mat ℚ) [3] = .error .panic := by
  refine ⟨rfl, ?_, by decide, ?_, by decide, ?_⟩
  · unfold cramerParallel
    rw [determinant_two_rows]
    have h0 : replaceColumn ([[1, 2, 3], [4, 5, 6]] : Mat ℚ) [1, 1] 0 = .ok [[1, 2], [1, 5]] := rfl
    have h1 : replaceColumn ([[1, 2, 3], [4, 5, 6]] : Mat ℚ) [1, 1] 1 = .ok [[1, 1], [4, 1]] := rfl
    simp only [ok_bind, List.foldlM_cons, List.foldlM_nil, h0, h1, determinant_two_rows]
    norm_num [assign, makeRow, pure, Except.pure, bind, Except.bind, List.replicate]
  · unfold cramerParallel
    rw [determinant_two_rows]
    have h0 : replaceColumn ([[2, 1], [1, 3]] : Mat ℚ) [3, 5, 7] 0 = .ok [[3, 1], [5, 3]] := rfl
    have h1 : replaceColumn ([[2, 1], [1, 3]] : Mat ℚ) [3, 5, 7] 1 = .ok [[2, 3], [1, 5]] := rfl
    simp only [ok_bind, List.foldlM_cons, List.foldlM_nil, h0, h1, determinant_two_rows]
    norm_num [assign, makeRow, pure, Except.pure, bind, Except.bind, List.replicate]
  · unfold cramerParallel
    rw [determinant_two_rows]
    have h0 : replaceColumn ([[2, 1], [1, 3]] : Mat ℚ) [3] 0 = .error .panic := rfl
    simp only [ok_bind, List.foldlM_cons, h0]
    norm_num [pure, Except.pure, bind, Except.bind]

/-- C6 (amended): `cramerParallel` validates no shape; with `n` the number of rows and
under every order of its goroutines: (a) only the first `n` entries of each row and of the
vector are read, the outcome being that on the leading `n`-column block and the first `n`
vector entries; (b) when every row and the vector have at least `n ≥ 1` entries the input
is not rejected: the solver returns `nil` if the determinant of the leading `n × n` block
is zero, and otherwise the solution vector of that block (the one the sequential solver
returns on it); (c) when some row or the vector has fewer than `n` entries the solver
never returns a solution vector: it returns `nil` or stops with a run-time panic. -/
theorem cramerParallel_shape_behaviour [Field K] [DecidableEq K] (sched : List Nat)
    (A : Mat K) (b : List K) (hs : sched.Perm (List.range A.length)) :
    cramerParallel sched A b =
      cramerParallel sched (A.map (fun row => row.take A.length)) (b.take A.length) ∧
    ((∀ row ∈ A, A.length ≤ row.length) → A.length ≤ b.length → 1 ≤ A.length →
      ((toMatrix A.length (A.map (fun row => row.take A.length))).det = 0 ∧
          cramerParallel sched A b = .ok none) ∨
      ((toMatrix A.length (A.map (fun row => row.take A.length))).det ≠ 0 ∧
          ∃ x, cramerParallel sched A b = .ok (some x) ∧ x.length = A.length ∧
            Kramer.cramer (augment (A.map (fun row => row.take A.length))
              (b.take A.length)) = .ok x)) ∧
    (((∃ i, i < A.length ∧ (A.getD i []).length < A.length) ∨ b.length < A.length) →
      (∀ x, cramerParallel sched A b ≠ .ok (some x)) ∧
        (cramerParallel sched A b = .ok none ∨ cramerParallel sched A b = .error .panic)) := by
  refine ⟨(cramerParallel_map_take sched A b).symm, ?_, ?_⟩
  · intro hrows hb hn
    have hA := isSquare_map_take A hrows
    have hb' : (b.take A.length).length = A.length := by
      rw [List.length_take]; exact Nat.min_eq_left hb
    have hpar := determinant_par_eq_det A.length _ hn hA
    have hseq := Kramer.determinant_eq_det A.length _ hn hA
    rw [← cramerParallel_map_take sched A b]
    by_cases hd : (toMatrix A.length (A.map (fun row => row.take A.length))).det = 0
    · left
      rw [hd] at hpar
      exact ⟨hd, cramerParallel_zero sched _ _ hpar⟩
    · right
      refine ⟨hd, _, cramerParallel_ok A.length sched _ _ _ hn hA hb' hs hpar hd, by simp, ?_⟩
      have haug := Kramer.isAugmented_augment A.length _ _ hn hA hb'
      have hco := Kramer.coefficients_augment A.length _ _ hA hb'
      have hcs := Kramer.constants_augment A.length _ _ hA hb'
      have hlen := Kramer.length_augment A.length _ _ hA.1 hb'
      obtain ⟨_, _, hx⟩ := Kramer.cramer_eq_of_det_ne_zero
        (augment (A.map (fun row => row.take A.length)) (b.take A.length)) _ haug
        (by rw [hco]; exact hseq) hd
      rw [hco, hcs, hlen] at hx
      exact hx
  · intro hshort
    have hno := cramerParallel_short_no_solution sched A b hs hshort
    refine ⟨hno, ?_⟩
    cases hres : cramerParallel sched A b with
    | error e =>
      right
      rw [cramerParallel_error sched A b e hres]
    | ok r =>
      cases r with
      | none => left; rfl
      | some x => exact absurd hres (hno x)

/-- Witness for the amended C6: a `2 × 3` coefficient matrix with a vector of length 2
(accepted), and a `2 × 2` matrix with a vector of length 1 (no solution vector). -/
theorem cramerParallel_shape_behaviour_witness :
    ([0, 1] : List Nat).Perm (List.range ([[1, 2, 3], [4, 5, 6]] : Mat ℚ).length) ∧
    (∀ row ∈ ([[1, 2, 3], [4, 5, 6]] : Mat ℚ),
      ([[1, 2, 3], [4, 5, 6]] : Mat ℚ).length ≤ row.length) ∧
    ([[1, 2, 3], [4, 5, 6]] : Mat ℚ).length ≤ ([1, 1] : List ℚ).length ∧
    1 ≤ ([[1, 2, 3], [4, 5, 6]] : Mat ℚ).length ∧
    (((toMatrix ([[1, 2, 3], [4, 5, 6]] : Mat ℚ).length
          (([[1, 2, 3], [4, 5, 6]] : Mat ℚ).map
            (fun row => row.take ([[1, 2, 3], [4, 5, 6]] : Mat ℚ).length))).det = 0 ∧
        cramerParallel [0, 1] ([[1, 2, 3], [4, 5, 6]] : Mat ℚ) [1, 1] = .ok none) ∨
      ((toMatrix ([[1, 2, 3], [4, 5, 6]] : Mat ℚ).length
          (([[1, 2, 3], [4, 5, 6]] : Mat ℚ).map
            (fun row => row.take ([[1, 2, 3], [4, 5, 6]] : Mat ℚ).length))).det ≠ 0 ∧
        ∃ x, cramerParallel [0, 1] ([[1, 2, 3], [4, 5, 6]] : Mat ℚ) [1, 1] = .ok (some x) ∧
          x.length = ([[1, 2, 3], [4, 5, 6]] : Mat ℚ).length ∧
          Kramer.cramer (augment (([[1, 2, 3], [4, 5, 6]] : Mat ℚ).map
              (fun row => row.take ([[1, 2, 3], [4, 5, 6]] : Mat ℚ).length))
            (([1, 1] : List ℚ).take ([[1, 2, 3], [4, 5, 6]] : Mat ℚ).length)) = .ok x)) ∧
    ([0, 1] : List Nat).Perm (List.range ([[2, 1], [1, 3]] : Mat ℚ).length) ∧
    ((∃ i, i < ([[2, 1], [1, 3]] : Mat ℚ).length ∧
        (([[2, 1], [1, 3]] : Mat ℚ).getD i []).length < ([[2, 1], [1, 3]] : Mat ℚ).length) ∨
      ([3] : List ℚ).length < ([[2, 1], [1, 3]] : Mat ℚ).length) ∧
    ((∀ x, cramerParallel [0, 1] ([[2, 1], [1, 3]] : Mat ℚ) [3] ≠ .ok (some x)) ∧
      (cramerParallel [0, 1] ([[2, 1], [1, 3]] : Mat ℚ) [3] = .ok none ∨
        cramerParallel [0, 1] ([[2, 1], [1, 3]] : Mat ℚ) [3] = .error .panic)) :=
  ⟨by decide, by simp, by decide, by decide,
    (cramerParallel_shape_behaviour [0, 1] [[1, 2, 3], [4, 5, 6]] [1, 1] (by decide)).2.1
      (by simp) (by decide) (by decide),
    by decide, Or.inr (by decide),
    (cramerParallel_shape_behaviour [0, 1] [[2, 1], [1, 3]] [3] (by decide)).2.2
      (Or.inr (by decide))⟩

end CramerMT

namespace Kramer
variable {K : Type}
open Spec

/-- C8: for every square matrix `M` of size `n ≥ 1`, `determinant M` and
`determinant (transpose M)` return the same value (entries are exact ring elements). -/
theorem determinant_transpose [CommRing K] (n : Nat) (M : Mat K) (hn : 1 ≤ n)
    (hsq : SquareOfSize n M) :
    ∃ v, determinant M = .ok v ∧ determinant (transpose n M) = .ok v := by
  refine ⟨_, determinant_eq_det n M hn hsq, ?_⟩
  rw [determinant_eq_det n (transpose n M) hn (isSquare_map_range n _), toMatrix_transpose,
    Matrix.det_transpose]

/-- Witness for C8: a `3 × 3` matrix of determinant `-3`. -/
theorem determinant_transpose_witness :
    1 ≤ 3 ∧ SquareOfSize 3 ([[1, 2, 3], [4, 5, 6], [7, 8, 10]] : Mat ℚ) ∧
    ∃ v, determinant ([[1, 2, 3], [4, 5, 6], [7, 8, 10]] : Mat ℚ) = .ok v ∧
      determinant (transpose 3 ([[1, 2, 3], [4, 5, 6], [7, 8, 10]] : Mat ℚ)) = .ok v :=
  ⟨by decide, ⟨rfl, by simp⟩,
    determinant_transpose 3 [[1, 2, 3], [4, 5, 6], [7, 8, 10]] (by decide) ⟨rfl, by simp⟩⟩

/-- C9: for every square matrix `M` of size `n ≥ 2` and distinct row indices `p ≠ q`, the
determinant of `M` with rows `p` and `q` exchanged is the negation of `determinant M`
(entries are exact ring elements). -/
theorem determinant_swapRows [CommRing K] (n : Nat) (M : Mat K) (p q : Nat) (hn : 2 ≤ n)
    (hsq : SquareOfSize n M) (hp : p < n) (hq : q < n) (hpq : p ≠ q) :
    ∃ v, determinant M = .ok v ∧ determinant (swapRows M p q) = .ok (-v) := by
  refine ⟨_, determinant_eq_det n M (by omega) hsq, ?_⟩
  rw [determinant_eq_det n (swapRows M p q) (by omega) (isSquare_swapRows n M p q hsq hp hq)]
  have h := toMatrix_swapRows n M ⟨p, hp⟩ ⟨q, hq⟩ hsq
  simp only at h
  rw [h, Matrix.det_permute, Equiv.Perm.sign_swap (by
    intro heq
    exact hpq (congrArg Fin.val heq))]
  simp

/-- Witness for C9: rows 0 and 2 of a `3 × 3` matrix. -/
theorem determinant_swapRows_witness :
    2 ≤ 3 ∧ SquareOfSize 3 ([[1, 2, 3], [4, 5, 6], [7, 8, 10]] : Mat ℚ) ∧ 0 < 3 ∧ 2 < 3 ∧ 0 ≠ 2 ∧
    ∃ v, determinant ([[1, 2, 3], [4, 5, 6], [7, 8, 10]] : Mat ℚ) = .ok v ∧
      determinant (swapRows ([[1, 2, 3], [4, 5, 6], [7, 8, 10]] : Mat ℚ) 0 2) = .ok (-v) :=
  ⟨by decide, ⟨rfl, by simp⟩, by decide, by decide, by decide,
    determinant_swapRows 3 [[1, 2, 3], [4, 5, 6], [7, 8, 10]] 0 2 (by decide) ⟨rfl, by simp⟩
      (by decide) (by decide) (by decide)⟩

/-- C10: for every size `n ≥ 1`, `determinant` of the `n × n` identity matrix returns `1`
with no error. -/
theorem determinant_identity [CommRing K] (n : Nat) (hn : 1 ≤ n) :
    determinant (identity n : Mat K) = .ok 1 := by
  rw [determinant_eq_det n (identity n) hn (isSquare_map_range n _), toMatrix_identity,
    Matrix.det_one]

/-- Witness for C10: the `4 × 4` identity matrix. -/
theorem determinant_identity_witness :
    1 ≤ 4 ∧ determinant (identity 4 : Mat ℚ) = .ok 1 :=
  ⟨by decide, determinant_identity 4 (by decide)⟩

end Kramer

/-! ## Further facts used by the remaining claims -/

namespace Kramer
variable {K : Type}
open Spec

theorem determinant_three [CommRing K] (a b c d e f g h i : K) :
    determinant [[a, b, c], [d, e, f], [g, h, i]] =
      .ok (a * e * i - a * f * h - b * d * i + b * f * g + c * d * h - c * e * g) := by
  rw [determinant_eq_det 3 [[a, b, c], [d, e, f], [g, h, i]] (by decide) ⟨rfl, by simp⟩,
    Matrix.det_fin_three]
  simp [toMatrix, entry]

end Kramer

/-! ## The claims, continued -/

namespace Kramer
variable {K : Type}
open Spec

/-- C11: for every square matrix `M` of size `n ≥ 2` in which the rows at two distinct
indices `p ≠ q` are equal, `determinant M` returns `0` (entries are exact ring elements). -/
theorem determinant_duplicate_row [CommRing K] (n : Nat) (M : Mat K) (p q : Nat)
    (hn : 2 ≤ n) (hsq : SquareOfSize n M) (hp : p < n) (hq : q < n) (hpq : p ≠ q)
    (hrows : M.getD p [] = M.getD q []) : determinant M = .ok 0 := by
  rw [determinant_eq_det n M (by omega) hsq]
  have hne : (⟨p, hp⟩ : Fin n) ≠ ⟨q, hq⟩ := fun h => hpq (congrArg Fin.val h)
  have hrow : toMatrix n M ⟨p, hp⟩ = toMatrix n M ⟨q, hq⟩ := by
    funext j
    simp only [toMatrix, Matrix.of_apply, entry, hrows]
  rw [Matrix.det_zero_of_row_eq hne hrow]

/-- Witness for C11: a `3 × 3` matrix whose rows 0 and 2 are equal. -/
theorem determinant_duplicate_row_witness :
    2 ≤ 3 ∧ SquareOfSize 3 ([[1, 2, 3], [4, 5, 6], [1, 2, 3]] : Mat ℚ) ∧ 0 < 3 ∧ 2 < 3 ∧
    0 ≠ 2 ∧
    ([[1, 2, 3], [4, 5, 6], [1, 2, 3]] : Mat ℚ).getD 0 [] =
      ([[1, 2, 3], [4, 5, 6], [1, 2, 3]] : Mat ℚ).getD 2 [] ∧
    determinant ([[1, 2, 3], [4, 5, 6], [1, 2, 3]] : Mat ℚ) = .ok 0 :=
  ⟨by decide, ⟨rfl, by simp⟩, by decide, by decide, by decide, rfl,
    determinant_duplicate_row 3 [[1, 2, 3], [4, 5, 6], [1, 2, 3]] 0 2 (by decide)
      ⟨rfl, by simp⟩ (by decide) (by decide) (by decide) rfl⟩

/-- C12: for every `n × n` matrix `M` (`n ≥ 1`) and all indices `row, col < n`,
`minor M row col` returns a matrix with exactly `n - 1` rows, each of length `n - 1`, whose
entry `[i][j]` is `M[i'][j']` with `i' = i` if `i < row` else `i + 1`, and `j' = j` if
`j < col` else `j + 1`. -/
theorem minor_contract [Zero K] (n : Nat) (M : Mat K) (row col : Nat) (hn : 1 ≤ n)
    (hsq : SquareOfSize n M) (hrow : row < n) (hcol : col < n) :
    ∃ mm, minor M row col = .ok mm ∧ mm.length = n - 1 ∧ (∀ r ∈ mm, r.length = n - 1) ∧
      ∀ i j, i < n - 1 → j < n - 1 →
        ∃ v, index2 mm i j = .ok v ∧
          index2 M (if i < row then i else i + 1) (if j < col then j else j + 1) = .ok v := by
  obtain ⟨k, rfl⟩ : ∃ k, n = k + 1 := ⟨n - 1, by omega⟩
  have hmsq := isSquare_minor k M hsq row col hrow hcol
  refine ⟨_, minor_eq M (k + 1) row col hsq hrow hcol, hmsq.1, hmsq.2, ?_⟩
  intro i j hi hj
  have hi' : i < k := hi
  have hj' : j < k := hj
  refine ⟨_, index2_entry k _ hmsq i j hi' hj', ?_⟩
  rw [entry_minor]
  apply index2_entry (k + 1) M hsq
  · split <;> omega
  · split <;> omega

/-- Witness for C12: the minor of a `3 × 3` matrix at row 1, column 0. -/
theorem minor_contract_witness :
    1 ≤ 3 ∧ SquareOfSize 3 ([[1, 2, 3], [4, 5, 6], [7, 8, 10]] : Mat ℚ) ∧ 1 < 3 ∧ 0 < 3 ∧
    ∃ mm, minor ([[1, 2, 3], [4, 5, 6], [7, 8, 10]] : Mat ℚ) 1 0 = .ok mm ∧
      mm.length = 3 - 1 ∧ (∀ r ∈ mm, r.length = 3 - 1) ∧
      ∀ i j, i < 3 - 1 → j < 3 - 1 →
        ∃ v, index2 mm i j = .ok v ∧
          index2 ([[1, 2, 3], [4, 5, 6], [7, 8, 10]] : Mat ℚ)
            (if i < 1 then i else i + 1) (if j < 0 then j else j + 1) = .ok v :=
  ⟨by decide, ⟨rfl, by simp⟩, by decide, by decide,
    minor_contract 3 [[1, 2, 3], [4, 5, 6], [7, 8, 10]] 1 0 (by decide) ⟨rfl, by simp⟩
      (by decide) (by decide)⟩

end Kramer

namespace CramerMT
variable {K : Type}
open Spec

/-- C13: for every `n × n` matrix `M`, vector `v` of length `n` and index `c < n`,
`replaceColumn M v c` returns an `n × n` matrix `R` with `R[i][c] = v[i]` for every row `i`
and `R[i][j] = M[i][j]` for every row `i` and every column `j ≠ c`. -/
theorem replaceColumn_contract [Zero K] (n : Nat) (M : Mat K) (v : List K) (c : Nat)
    (hsq : SquareOfSize n M) (hv : v.length = n) (hc : c < n) :
    ∃ R, replaceColumn M v c = .ok R ∧ SquareOfSize n R ∧
      (∀ i, i < n → ∃ x, index v i = .ok x ∧ index2 R i c = .ok x) ∧
      ∀ i j, i < n → j < n → j ≠ c → ∃ x, index2 M i j = .ok x ∧ index2 R i j = .ok x := by
  have hR := Kramer.isSquare_withColumn n M v c hsq hv
  refine ⟨_, replaceColumn_eq n M v c hsq hv hc, hR, ?_, ?_⟩
  · intro i hi
    refine ⟨v.getD i 0, index_ok v i 0 (by omega), ?_⟩
    rw [Kramer.index2_entry n _ hR i c hi hc, Kramer.entry_withColumn n M v c i c hsq hv hi hc,
      if_pos rfl]
  · intro i j hi hj hjc
    refine ⟨entry M i j, Kramer.index2_entry n M hsq i j hi hj, ?_⟩
    rw [Kramer.index2_entry n _ hR i j hi hj, Kramer.entry_withColumn n M v c i j hsq hv hi hj,
      if_neg hjc]

/-- Witness for C13: column 1 of a `2 × 2` matrix replaced by `[3, 5]`. -/
theorem replaceColumn_contract_witness :
    SquareOfSize 2 ([[2, 1], [1, 3]] : Mat ℚ) ∧ ([3, 5] : List ℚ).length = 2 ∧ 1 < 2 ∧
    ∃ R, replaceColumn ([[2, 1], [1, 3]] : Mat ℚ) [3, 5] 1 = .ok R ∧ SquareOfSize 2 R ∧
      (∀ i, i < 2 → ∃ x, index ([3, 5] : List ℚ) i = .ok x ∧ index2 R i 1 = .ok x) ∧
      ∀ i j, i < 2 → j < 2 → j ≠ 1 →
        ∃ x, index2 ([[2, 1], [1, 3]] : Mat ℚ) i j = .ok x ∧ index2 R i j = .ok x :=
  ⟨⟨rfl, by simp⟩, rfl, by decide,
    replaceColumn_contract 2 [[2, 1], [1, 3]] [3, 5] 1 ⟨rfl, by simp⟩ rfl (by decide)⟩

end CramerMT

namespace Kramer
variable {K : Type}
open Spec

/-- C14: `isSquareMatrix` returns true if and only if the matrix has at least one row and the
length of every row equals the number of rows. -/
theorem isSquareMatrix_contract (M : Mat K) :
    isSquareMatrix M = true ↔ (M ≠ [] ∧ ∀ row ∈ M, row.length = M.length) := by
  rw [isSquareMatrix_iff]
  constructor
  · rintro ⟨hlen, hrows⟩
    refine ⟨?_, hrows⟩
    intro hnil
    rw [hnil] at hlen
    simp at hlen
  · rintro ⟨hne, hrows⟩
    exact ⟨List.length_pos.mpr hne, hrows⟩

/-- C15: `isAugmentedMatrixForCramer` returns true if and only if the matrix has at least one
row, all rows have the same length `c`, and `c` is the number of rows plus one. -/
theorem isAugmentedMatrixForCramer_contract (M : Mat K) :
    isAugmentedMatrixForCramer M = true ↔
      (M ≠ [] ∧ ∃ c, (∀ row ∈ M, row.length = c) ∧ c = M.length + 1) := by
  rw [isAugmented_iff]
  constructor
  · rintro ⟨hlen, hrows⟩
    refine ⟨?_, M.length + 1, hrows, rfl⟩
    intro hnil
    rw [hnil] at hlen
    simp at hlen
  · rintro ⟨hne, c, hrows, hc⟩
    exact ⟨List.length_pos.mpr hne, fun row hrow => by rw [hrows row hrow, hc]⟩

/-- C16: for coefficients `[[2,1],[1,3]]` and constants `[3,5]` (augmented matrix
`[[2,1,3],[1,3,5]]`) the main determinant is `5`, the two column-substituted determinants
are `4` and `7`, and `cramer` returns without error the vector `[4/5, 7/5]`, that is
`x1 = 0.8` and `x2 = 1.4`. -/
theorem cramer_concrete_case_one :
    coefficients ([[2, 1, 3], [1, 3, 5]] : Mat ℚ) = [[2, 1], [1, 3]] ∧
    constants ([[2, 1, 3], [1, 3, 5]] : Mat ℚ) = [3, 5] ∧
    determinant ([[2, 1], [1, 3]] : Mat ℚ) = .ok 5 ∧
    withColumn ([[2, 1], [1, 3]] : Mat ℚ) [3, 5] 0 = [[3, 1], [5, 3]] ∧
    determinant ([[3, 1], [5, 3]] : Mat ℚ) = .ok 4 ∧
    withColumn ([[2, 1], [1, 3]] : Mat ℚ) [3, 5] 1 = [[2, 3], [1, 5]] ∧
    determinant ([[2, 3], [1, 5]] : Mat ℚ) = .ok 7 ∧
    cramer ([[2, 1, 3], [1, 3, 5]] : Mat ℚ) = .ok [4 / 5, 7 / 5] ∧
    ((4 / 5 : ℚ) = 0.8 ∧ (7 / 5 : ℚ) = 1.4) := by
  have hco : coefficients ([[2, 1, 3], [1, 3, 5]] : Mat ℚ) = [[2, 1], [1, 3]] := rfl
  have hcs : constants ([[2, 1, 3], [1, 3, 5]] : Mat ℚ) = [3, 5] := rfl
  have hdet : determinant ([[2, 1], [1, 3]] : Mat ℚ) = .ok 5 := by
    rw [determinant_two]; norm_num
  have h0 : determinant ([[3, 1], [5, 3]] : Mat ℚ) = .ok 4 := by
    rw [determinant_two]; norm_num
  have h1 : determinant ([[2, 3], [1, 5]] : Mat ℚ) = .ok 7 := by
    rw [determinant_two]; norm_num
  refine ⟨hco, hcs, hdet, rfl, h0, rfl, h1, ?_, by norm_num, by norm_num⟩
  have hx := cramerWith_ok determinant ([[2, 1, 3], [1, 3, 5]] : Mat ℚ) rfl 5
    (fun i => if i = 0 then 4 else 7) (by rw [hco]; exact hdet) (by norm_num) (by
      intro i hi
      rw [hco, hcs]
      have hi2 : i < 2 := hi
      interval_cases i
      · exact h0
      · exact h1)
  unfold cramer
  rw [hx]
  rfl

/-- C17: for the `3 × 3` identity coefficient matrix with constants `[7,8,9]` (augmented
matrix `[[1,0,0,7],[0,1,0,8],[0,0,1,9]]`), `cramer` returns without error exactly the
vector `[7,8,9]`. -/
theorem cramer_concrete_identity :
    coefficients ([[1, 0, 0, 7], [0, 1, 0, 8], [0, 0, 1, 9]] : Mat ℚ) = identity 3 ∧
    constants ([[1, 0, 0, 7], [0, 1, 0, 8], [0, 0, 1, 9]] : Mat ℚ) = [7, 8, 9] ∧
    cramer ([[1, 0, 0, 7], [0, 1, 0, 8], [0, 0, 1, 9]] : Mat ℚ) = .ok [7, 8, 9] := by
  have hco : coefficients ([[1, 0, 0, 7], [0, 1, 0, 8], [0, 0, 1, 9]] : Mat ℚ) =
      [[1, 0, 0], [0, 1, 0], [0, 0, 1]] := rfl
  have hcs : constants ([[1, 0, 0, 7], [0, 1, 0, 8], [0, 0, 1, 9]] : Mat ℚ) = [7, 8, 9] := rfl
  have hid : (identity 3 : Mat ℚ) = [[1, 0, 0], [0, 1, 0], [0, 0, 1]] := by
    simp [identity, List.range_succ]
  refine ⟨by rw [hco, hid], hcs, ?_⟩
  have hx := cramerWith_ok determinant ([[1, 0, 0, 7], [0, 1, 0, 8], [0, 0, 1, 9]] : Mat ℚ) rfl 1
    (fun i => ([7, 8, 9] : List ℚ).getD i 0)
    (by rw [hco, determinant_three]; norm_num) (by norm_num) (by
      intro i hi
      rw [hco, hcs]
      have hi3 : i < 3 := hi
      interval_cases i
      · show determinant ([[7, 0, 0], [8, 1, 0], [9, 0, 1]] : Mat ℚ) = _
        rw [determinant_three]; norm_num
      · show determinant ([[1, 7, 0], [0, 8, 0], [0, 9, 1]] : Mat ℚ) = _
        rw [determinant_three]; norm_num
      · show determinant ([[1, 0, 7], [0, 1, 8], [0, 0, 9]] : Mat ℚ) = _
        rw [determinant_three]; norm_num)
  unfold cramer
  rw [hx]
  norm_num [List.range_succ]

/-- C18: on every square matrix `M` of size `n` the sequential `determinant` follows the
stated recursion: for `n = 1` it returns `M[0][0]`; for `n = 2` it returns
`M[0][0]*M[1][1] - M[0][1]*M[1][0]`; for `n ≥ 3` every `minor M 0 j` (`j < n`) is built
without error, `determinant` of it returns a value `dets j`, and the result is the sum over
`j < n` of `sign j * M[0][j] * dets j`, with `sign j = +1` for even `j` and `-1` for odd
`j`. -/
theorem determinant_recursion [CommRing K] (n : Nat) (M : Mat K) (hsq : SquareOfSize n M) :
    (n = 1 → determinant M = .ok (entry M 0 0)) ∧
    (n = 2 → determinant M =
      .ok (entry M 0 0 * entry M 1 1 - entry M 0 1 * entry M 1 0)) ∧
    (3 ≤ n → ∃ dets : Nat → K,
      (∀ j, j < n → ∃ mm, minor M 0 j = .ok mm ∧ determinant mm = .ok (dets j)) ∧
      determinant M = .ok (∑ j in Finset.range n,
        (if j % 2 = 0 then (1 : K) else -1) * entry M 0 j * dets j)) := by
  have hlen := hsq.1
  refine ⟨?_, ?_, ?_⟩
  · intro h1
    subst h1
    have hsqb := isSquareMatrix_of_isSquare 1 M (by omega) hsq
    rw [determinant]
    simp only [hsqb, Bool.true_eq_false, if_false, hlen, if_true]
    exact index2_entry 1 M hsq 0 0 (by omega) (by omega)
  · intro h2
    subst h2
    have hsqb := isSquareMatrix_of_isSquare 2 M (by omega) hsq
    rw [determinant]
    simp only [hsqb, Bool.true_eq_false, if_false, hlen, if_true]
    rw [if_neg (by decide)]
    rw [index2_entry 2 M hsq 0 0 (by omega) (by omega), ok_bind,
      index2_entry 2 M hsq 1 1 (by omega) (by omega), ok_bind,
      index2_entry 2 M hsq 0 1 (by omega) (by omega), ok_bind,
      index2_entry 2 M hsq 1 0 (by omega) (by omega), ok_bind]
    rfl
  · intro h3
    obtain ⟨k, rfl⟩ : ∃ k, n = k + 1 := ⟨n - 1, by omega⟩
    have hsqb := isSquareMatrix_of_isSquare (k + 1) M (by omega) hsq
    have hminor : ∀ j, j < k + 1 →
        minor M 0 j = .ok ((M.eraseIdx 0).map (fun r => r.eraseIdx j)) :=
      fun j hj => minor_eq M (k + 1) 0 j hsq (by omega) hj
    have hdet : ∀ j, j < k + 1 →
        determinant ((M.eraseIdx 0).map (fun r => r.eraseIdx j)) =
          .ok (toMatrix k ((M.eraseIdx 0).map (fun r => r.eraseIdx j))).det :=
      fun j hj => determinant_eq_det k _ (by omega) (isSquare_minor k M hsq 0 j (by omega) hj)
    refine ⟨fun j => (toMatrix k ((M.eraseIdx 0).map (fun r => r.eraseIdx j))).det,
      fun j hj => ⟨_, hminor j hj, hdet j hj⟩, ?_⟩
    rw [determinant]
    simp only [hsqb, Bool.true_eq_false, if_false, hlen]
    rw [if_neg (by omega), if_neg (by omega)]
    apply foldlM_sum _ _ (k + 1) _ (k + 1) le_rfl
    intro acc j hj
    split
    · rename_i e heq
      rw [hminor j hj] at heq
      cases heq
    · rename_i mm heq
      rw [hminor j hj] at heq
      cases heq
      rw [hdet j hj, ok_bind, index2_entry (k + 1) M hsq 0 j (by omega) hj, ok_bind]
      have hsign : (if j % 2 = 1 then (-1 : K) else 1) = if j % 2 = 0 then (1 : K) else -1 := by
        rcases Nat.mod_two_eq_zero_or_one j with h | h <;> simp [h]
      rw [hsign]
      rfl

/-- Witness for C18: a `3 × 3` matrix. -/
theorem determinant_recursion_witness :
    SquareOfSize 3 ([[1, 2, 3], [4, 5, 6], [7, 8, 10]] : Mat ℚ) ∧
    ((3 = 1 → determinant ([[1, 2, 3], [4, 5, 6], [7, 8, 10]] : Mat ℚ) =
        .ok (entry ([[1, 2, 3], [4, 5, 6], [7, 8, 10]] : Mat ℚ) 0 0)) ∧
    (3 = 2 → determinant ([[1, 2, 3], [4, 5, 6], [7, 8, 10]] : Mat ℚ) =
      .ok (entry ([[1, 2, 3], [4, 5, 6], [7, 8, 10]] : Mat ℚ) 0 0 *
          entry ([[1, 2, 3], [4, 5, 6], [7, 8, 10]] : Mat ℚ) 1 1 -
        entry ([[1, 2, 3], [4, 5, 6], [7, 8, 10]] : Mat ℚ) 0 1 *
          entry ([[1, 2, 3], [4, 5, 6], [7, 8, 10]] : Mat ℚ) 1 0)) ∧
    (3 ≤ 3 → ∃ dets : Nat → ℚ,
      (∀ j, j < 3 → ∃ mm, minor ([[1, 2, 3], [4, 5, 6], [7, 8, 10]] : Mat ℚ) 0 j = .ok mm ∧
        determinant mm = .ok (dets j)) ∧
      determinant ([[1, 2, 3], [4, 5, 6], [7, 8, 10]] : Mat ℚ) =
        .ok (∑ j in Finset.range 3, (if j % 2 = 0 then (1 : ℚ) else -1) *
          entry ([[1, 2, 3], [4, 5, 6], [7, 8, 10]] : Mat ℚ) 0 j * dets j))) :=
  ⟨⟨rfl, by simp⟩, determinant_recursion 3 [[1, 2, 3], [4, 5, 6], [7, 8, 10]] ⟨rfl, by simp⟩⟩

end Kramer

namespace CramerMT
variable {K : Type}
open Spec

/-- C19: for every square matrix `M` of size `n ≥ 1`, the `determinant` of
`Cramer_multithreading.go` (sign as the power `(-1)^j`, minor built inline, no shape check)
returns the same value as the `determinant` of `Kramer.go` (sign by parity of `j`, minor
through the function `minor`). -/
theorem determinant_par_agrees_with_seq [CommRing K] (n : Nat) (M : Mat K) (hn : 1 ≤ n)
    (hsq : SquareOfSize n M) :
    ∃ v, CramerMT.determinant M = .ok v ∧ Kramer.determinant M = .ok v :=
  ⟨_, determinant_par_eq_det n M hn hsq, Kramer.determinant_eq_det n M hn hsq⟩

/-- Witness for C19: a `3 × 3` matrix. -/
theorem determinant_par_agrees_with_seq_witness :
    1 ≤ 3 ∧ SquareOfSize 3 ([[1, 2, 3], [4, 5, 6], [7, 8, 10]] : Mat ℚ) ∧
    ∃ v, CramerMT.determinant ([[1, 2, 3], [4, 5, 6], [7, 8, 10]] : Mat ℚ) = .ok v ∧
      Kramer.determinant ([[1, 2, 3], [4, 5, 6], [7, 8, 10]] : Mat ℚ) = .ok v :=
  ⟨by decide, ⟨rfl, by simp⟩,
    determinant_par_agrees_with_seq 3 [[1, 2, 3], [4, 5, 6], [7, 8, 10]] (by decide)
      ⟨rfl, by simp⟩⟩

end CramerMT

namespace Kramer
variable {K : Type}
open Spec

/-- C20: for every square matrix `M` of size `n ≥ 1` over a commutative ring, the recursive
first-row cofactor expansion computed by `determinant` is the Leibniz determinant of `M`,
the sum over all permutations `σ` of `sign σ * ∏ i, M[σ i][i]`; hence over a field
`determinant M` is `0` exactly when `M` is singular (has no inverse matrix). -/
theorem determinant_eq_leibniz [CommRing K] (n : Nat) (M : Mat K) (hn : 1 ≤ n)
    (hsq : SquareOfSize n M) :
    determinant M =
      .ok (∑ σ : Equiv.Perm (Fin n), Equiv.Perm.sign σ • ∏ i : Fin n, entry M (σ i) i) ∧
    (IsField K → (determinant M = .ok 0 ↔
      ¬ ∃ N : Matrix (Fin n) (Fin n) K, toMatrix n M * N = 1 ∧ N * toMatrix n M = 1)) := by
  have hdet := determinant_eq_det n M hn hsq
  constructor
  · rw [hdet, Matrix.det_apply]
    rfl
  · intro hK
    rw [hdet, ← isUnit_iff_exists, Matrix.isUnit_iff_isUnit_det]
    constructor
    · intro h hu
      have h0 : (toMatrix n M).det = 0 := Except.ok.inj h
      rw [h0] at hu
      obtain ⟨x, y, hxy⟩ := hK.exists_pair_ne
      have h01 : (0 : K) = 1 := by
        obtain ⟨b, hb, _⟩ := isUnit_iff_exists.mp hu
        rw [zero_mul] at hb
        exact hb
      apply hxy
      calc x = x * 1 := (mul_one x).symm
        _ = x * 0 := by rw [h01]
        _ = 0 := mul_zero x
        _ = y * 0 := (mul_zero y).symm
        _ = y * 1 := by rw [h01]
        _ = y := mul_one y
    · intro hnu
      by_contra hne
      apply hnu
      have hne0 : (toMatrix n M).det ≠ 0 := fun h0 => hne (by rw [h0])
      obtain ⟨b, hb⟩ := hK.mul_inv_cancel hne0
      exact isUnit_iff_exists.mpr ⟨b, hb, by rw [mul_comm]; exact hb⟩

/-- Witness for C20: a `3 × 3` matrix over the rationals. -/
theorem determinant_eq_leibniz_witness :
    1 ≤ 3 ∧ SquareOfSize 3 ([[1, 2, 3], [4, 5, 6], [7, 8, 10]] : Mat ℚ) ∧
    (determinant ([[1, 2, 3], [4, 5, 6], [7, 8, 10]] : Mat ℚ) =
      .ok (∑ σ : Equiv.Perm (Fin 3), Equiv.Perm.sign σ •
        ∏ i : Fin 3, entry ([[1, 2, 3], [4, 5, 6], [7, 8, 10]] : Mat ℚ) (σ i) i) ∧
    (IsField ℚ → (determinant ([[1, 2, 3], [4, 5, 6], [7, 8, 10]] : Mat ℚ) = .ok 0 ↔
      ¬ ∃ N : Matrix (Fin 3) (Fin 3) ℚ,
        toMatrix 3 ([[1, 2, 3], [4, 5, 6], [7, 8, 10]] : Mat ℚ) * N = 1 ∧
          N * toMatrix 3 ([[1, 2, 3], [4, 5, 6], [7, 8, 10]] : Mat ℚ) = 1))) :=
  ⟨by decide, ⟨rfl, by simp⟩,
    determinant_eq_leibniz 3 [[1, 2, 3], [4, 5, 6], [7, 8, 10]] (by decide) ⟨rfl, by simp⟩⟩

end Kramer
